import Mathlib

/-!
Shallow embedding of `src/formatMessage.js` (the whole repository is this one
function).  Strings are modelled as `List Char`; each regex-replacement pass of
the source is embedded as an executable scanner that follows the JS regex
engine's leftmost-match, greedy/lazy, depth-first backtracking semantics.
Bounded recursion that is not structural uses explicit fuel; running out of
fuel — and the single spot where the JS code could throw (`rows[0].match` when
`rows` is empty) — are `Except.error` branches, proved unreachable.
-/

set_option maxRecDepth 100000

/-- JS `\s` (and `String.prototype.trim`) whitespace class. -/
def jsWhite (c : Char) : Bool :=
  c == ' ' || c == '\t' || c == '\n' || c == '\r' ||
  c == Char.ofNat 11 || c == Char.ofNat 12 || c == Char.ofNat 0xa0 ||
  c == Char.ofNat 0x1680 || (0x2000 ≤ c.toNat && c.toNat ≤ 0x200a) ||
  c == Char.ofNat 0x2028 || c == Char.ofNat 0x2029 || c == Char.ofNat 0x202f ||
  c == Char.ofNat 0x205f || c == Char.ofNat 0x3000 || c == Char.ofNat 0xfeff

/-- JS line terminators: `\n`, `\r`, U+2028, U+2029 (what `.` does not match,
and where multiline `^` fires after). -/
def isLineTerm (c : Char) : Bool :=
  c == '\n' || c == '\r' || c == Char.ofNat 0x2028 || c == Char.ofNat 0x2029

/-- JS `.` (no `s` flag): any char except a line terminator. -/
def dotChar (c : Char) : Bool := !(isLineTerm c)

/-- The class `[-:|]` of the table separator row. -/
def isSepChar (c : Char) : Bool := c == '-' || c == ':' || c == '|'

/-- JS `\d`. -/
def jsDigit (c : Char) : Bool := 48 ≤ c.toNat && c.toNat ≤ 57

/-- The class `[^\n]`. -/
def notNl (c : Char) : Bool := !(c == '\n')

/-- The backtick character. -/
def tick : Char := Char.ofNat 96

/-- JS `String.prototype.trim`. -/
def jsTrim (l : List Char) : List Char :=
  ((l.dropWhile jsWhite).reverse.dropWhile jsWhite).reverse

/-- JS `str.split('\n')`. -/
def splitNl : List Char → List (List Char)
  | [] => [[]]
  | '\n' :: r => [] :: splitNl r
  | c :: r =>
    match splitNl r with
    | [] => [[c]]
    | l :: ls => (c :: l) :: ls

/-- `column.replace('|', '')`: remove the first `|` substring occurrence. -/
def removeFirstPipe : List Char → List Char
  | [] => []
  | '|' :: r => r
  | c :: r => c :: removeFirstPipe r

/-- All matches of `/\|([^|]*)/g` over a row, as the full matched texts
(JS `row.match(/\|([^|]*)/g)`; `[]` plays the role of `null`). -/
def cellMatchesStep (rec : List Char → Except String (List (List Char))) :
    List Char → Except String (List (List Char))
  | [] => .ok []
  | c :: rest =>
    if c = '|' then do
      let t ← rec (rest.dropWhile (fun x => !(x == '|')))
      .ok (('|' :: rest.takeWhile (fun x => !(x == '|'))) :: t)
    else rec rest

/-- Fuel recursion for `cellMatchesStep`. -/
def cellMatches : Nat → List Char → Except String (List (List Char))
  | 0, _ => .error "fuel exhausted"
  | fuel + 1, s => cellMatchesStep (cellMatches fuel) s

/-- Length of the maximal prefix satisfying `p`. -/
def runLen (p : Char → Bool) : List Char → Nat
  | [] => 0
  | c :: r => if p c then runLen p r + 1 else 0

/-- The candidate consumptions of a greedy `p+`, best (longest) first:
pairs `(k, rest)` with `1 ≤ k ≤` run length, `rest` the suffix after `k`. -/
def plusSplits (p : Char → Bool) (s : List Char) : List (Nat × List Char) :=
  (List.range (runLen p s)).reverse.map (fun i => (i + 1, s.drop (i + 1)))

/-- The candidate consumptions of a greedy `p*`, best (longest) first. -/
def starSplits (p : Char → Bool) (s : List Char) : List (Nat × List Char) :=
  (List.range (runLen p s + 1)).reverse.map (fun i => (i, s.drop i))

/-- Depth-first search over ordered alternatives: first alternative whose
continuation succeeds wins (regex backtracking order); errors abort. -/
def firstSomeE {α β : Type} : List α → (α → Except String (Option β)) → Except String (Option β)
  | [], _ => .ok none
  | a :: l, f =>
    match f a with
    | .error e => .error e
    | .ok (some b) => .ok (some b)
    | .ok none => firstSomeE l f

/-- The trailing `(?:\n\|[^\n]+\|\s*)*` of the table regex: number of
characters it consumes at `s`, by greedy depth-first search (each iteration:
`\n`, `\|`, greedy `[^\n]+`, `\|`, greedy `\s*`).  Fueled; every branch of the
star eventually succeeds (the star may stop), so the first DFS leaf wins. -/
def groupStarStep (rec : List Char → Except String Nat) (s : List Char) : Except String Nat :=
  match s with
  | '\n' :: '|' :: s2 => do
    let r ← firstSomeE (plusSplits notNl s2) (fun kr =>
      match kr.2 with
      | '|' :: r1 =>
        firstSomeE (starSplits jsWhite r1) (fun wr => do
          let n ← rec wr.2
          .ok (some (2 + kr.1 + 1 + wr.1 + n)))
      | _ => .ok none)
    .ok (r.getD 0)
  | _ => .ok 0

/-- Fuel recursion for `groupStarStep`. -/
def groupStar : Nat → List Char → Except String Nat
  | 0, _ => .error "fuel exhausted"
  | fuel + 1, s => groupStarStep (groupStar fuel) s

/-- Try the table regex
`\|[^\n]+\|\s*\n\|[-:|]+\|[^\n]+\|\s*(?:\n\|[^\n]+\|\s*)*`
at the start of `s`; `some n` is the number of characters matched
(backtracking in regex priority order). -/
def tableMatchAtCore (s : List Char) : Except String (Option Nat) :=
  match s with
  | '|' :: s1 =>
    firstSomeE (plusSplits notNl s1) (fun ar =>
      match ar.2 with
      | '|' :: r2 =>
        firstSomeE (starSplits jsWhite r2) (fun w1r =>
          match w1r.2 with
          | '\n' :: '|' :: r5 =>
            firstSomeE (plusSplits isSepChar r5) (fun br =>
              match br.2 with
              | '|' :: r7 =>
                firstSomeE (plusSplits notNl r7) (fun cr =>
                  match cr.2 with
                  | '|' :: r9 =>
                    firstSomeE (starSplits jsWhite r9) (fun w2r => do
                      let n ← groupStar (w2r.2.length + 1) w2r.2
                      .ok (some (6 + ar.1 + w1r.1 + br.1 + cr.1 + w2r.1 + n)))
                  | _ => .ok none)
              | _ => .ok none)
          | _ => .ok none)
      | _ => .ok none)
  | _ => .ok none

/-- One `<th>`/`<td>` cell row rendering: the `forEach` over
`row.match(/\|([^|]*)/g)` results, skipping a first cell that trims to `|`,
and trimming `column.replace('|','')`. -/
def renderCells (open_ close_ : List Char) (cells : List (List Char)) : List Char :=
  (cells.enum.map (fun ic =>
    if ic.1 == 0 && (jsTrim ic.2 == ['|']) then []
    else open_ ++ jsTrim (removeFirstPipe ic.2) ++ close_)).flatten

/-- The body of the table callback once `rows[0]` exists: build the header
from `rows[0]` and the body from `rows[2..]`. -/
def tableCallbackBody (rows : List (List Char)) (r0 : List Char) :
    Except String (List Char) := do
  let headerMatch ← cellMatches (r0.length + 1) r0
  let headPart :=
    if headerMatch.isEmpty then []
    else "<tr>".data ++ renderCells "<th>".data "</th>".data headerMatch ++ "</tr>".data
  let bodyRows ← (rows.drop 2).mapM (fun row => do
    let rowMatch ← cellMatches (row.length + 1) row
    if rowMatch.isEmpty then (.ok [] : Except String (List Char))
    else .ok ("<tr>".data ++ renderCells "<td>".data "</td>".data rowMatch ++ "</tr>".data))
  .ok ("<table class=\"table table-bordered table-dark table-sm\"><thead>".data
    ++ headPart ++ "</thead><tbody>".data ++ bodyRows.flatten ++ "</tbody></table>".data)

/-- The table-replacement callback (lines 13–52 of the source).  JS throws
when `rows` is empty (`rows[0].match` on `undefined`); that is the
`Except.error` branch. -/
def tableCallback (table : List Char) : Except String (List Char) :=
  match (splitNl table).filter (fun r => !(jsTrim r).isEmpty) with
  | [] => .error "TypeError: rows 0 is undefined"
  | r0 :: rest => tableCallbackBody (r0 :: rest) r0

/-- Match attempt of the table pass at one position (the regex is not
anchored, so the line-start flag is ignored). -/
def tableMatchAtFn (_ : Bool) (s : List Char) : Except String (Option (Nat × List Char)) := do
  match ← tableMatchAtCore s with
  | none => .ok none
  | some n => do
    let repl ← tableCallback (s.take n)
    .ok (some (n, repl))

/-- Generic embedding of `String.prototype.replace` with a `g`-flagged regex:
walk the string position by position, at each position attempt `matchAt`
(given the current multiline line-start flag); on a match of `k` characters
emit the replacement and continue after it (after an empty match, JS advances
one position, copying the character). -/
def scanGStep (matchAt : Bool → List Char → Except String (Option (Nat × List Char)))
    (rec : Bool → List Char → Except String (List Char)) :
    Bool → List Char → Except String (List Char)
  | _, [] => .ok []
  | atLS, c :: rest => do
    match ← matchAt atLS (c :: rest) with
    | none => do
      let t ← rec (isLineTerm c) rest
      .ok (c :: t)
    | some (0, repl) => do
      let t ← rec (isLineTerm c) rest
      .ok (repl ++ c :: t)
    | some (k + 1, repl) => do
      let t ← rec (isLineTerm (((c :: rest).take (k + 1)).getLastD 'x')) (rest.drop k)
      .ok (repl ++ t)

/-- Fuel recursion for `scanGStep`. -/
def scanG (matchAt : Bool → List Char → Except String (Option (Nat × List Char))) :
    Nat → Bool → List Char → Except String (List Char)
  | 0, _, _ => .error "fuel exhausted"
  | fuel + 1, atLS, s => scanGStep matchAt (scanG matchAt fuel) atLS s

/-- Generic embedding of `String.prototype.match` with a `g`-flagged regex:
collect the list of matched texts (`[]` plays the role of `null`). -/
def collectGStep (matchAt : Bool → List Char → Option Nat)
    (rec : Bool → List Char → Except String (List (List Char))) :
    Bool → List Char → Except String (List (List Char))
  | _, [] => .ok []
  | atLS, c :: rest =>
    match matchAt atLS (c :: rest) with
    | none => rec (isLineTerm c) rest
    | some 0 => do
      let t ← rec (isLineTerm c) rest
      .ok ([] :: t)
    | some (k + 1) => do
      let t ← rec (isLineTerm (((c :: rest).take (k + 1)).getLastD 'x')) (rest.drop k)
      .ok ((c :: rest).take (k + 1) :: t)

/-- Fuel recursion for `collectGStep`. -/
def collectG (matchAt : Bool → List Char → Option Nat) :
    Nat → Bool → List Char → Except String (List (List Char))
  | 0, _, _ => .error "fuel exhausted"
  | fuel + 1, atLS, s => collectGStep matchAt (collectG matchAt fuel) atLS s

/-- Does the string start with three backticks? -/
def startsTicks3 : List Char → Bool
  | c1 :: c2 :: c3 :: _ => c1 == tick && c2 == tick && c3 == tick
  | _ => false

/-- Lazy search for the closing triple backtick of `/```([\s\S]*?)```/`:
shortest content (any chars, `[\s\S]`) followed by three backticks. -/
def findFence : List Char → Option (List Char × List Char)
  | [] => none
  | c :: rest =>
    if startsTicks3 (c :: rest) then some ([], rest.drop 2)
    else (findFence rest).map (fun p => (c :: p.1, p.2))

/-- Pass 2 (line 55): `formattedMsg.replace(/```([\s\S]*?)```/g,
'<pre><code>$1</code></pre>')`.  At a triple backtick with a closing fence
ahead, rewrite; otherwise (also when the fence never closes) move on one
character, as the JS engine does. -/
def fencePassStep (rec : List Char → Except String (List Char)) :
    List Char → Except String (List Char)
  | [] => .ok []
  | c :: rest =>
    if startsTicks3 (c :: rest) then
      match findFence (rest.drop 2) with
      | some p => do
        let t ← rec p.2
        .ok ("<pre><code>".data ++ p.1 ++ "</code></pre>".data ++ t)
      | none => do
        let t ← rec rest
        .ok (c :: t)
    else do
      let t ← rec rest
      .ok (c :: t)

/-- Fuel recursion for `fencePassStep`. -/
def fencePass : Nat → List Char → Except String (List Char)
  | 0, _ => .error "fuel exhausted"
  | fuel + 1, s => fencePassStep (fencePass fuel) s

/-- Pass 3 (line 58): `formattedMsg.replace(/`([^`]+)`/g, '<code>$1</code>')`.
At a backtick: greedy nonempty run of non-backticks must be closed by a
backtick; otherwise the position fails and the engine moves on one char. -/
def inlineCodePassStep (rec : List Char → Except String (List Char)) :
    List Char → Except String (List Char)
  | [] => .ok []
  | c :: rest =>
    if c = tick then
      match rest.dropWhile (fun x => !(x == tick)) with
      | _ :: rest2 =>
        if rest.takeWhile (fun x => !(x == tick)) = [] then do
          let t ← rec rest
          .ok (c :: t)
        else do
          let t ← rec rest2
          .ok ("<code>".data ++ rest.takeWhile (fun x => !(x == tick)) ++ "</code>".data ++ t)
      | [] => do
        let t ← rec rest
        .ok (c :: t)
    else do
      let t ← rec rest
      .ok (c :: t)

/-- Fuel recursion for `inlineCodePassStep`. -/
def inlineCodePass : Nat → List Char → Except String (List Char)
  | 0, _ => .error "fuel exhausted"
  | fuel + 1, s => inlineCodePassStep (inlineCodePass fuel) s

/-- Lazy search for the closing `**` of `/\*\*(.*?)\*\*/`:
shortest run of `.` (no line terminators) followed by two asterisks. -/
def findCloseSS : List Char → Option (List Char × List Char)
  | [] => none
  | c :: rest =>
    match rest with
    | c2 :: rest2 =>
      if c = '*' ∧ c2 = '*' then some ([], rest2)
      else if dotChar c then (findCloseSS rest).map (fun p => (c :: p.1, p.2))
      else none
    | [] => none

/-- Pass 4 (line 61): `formattedMsg.replace(/\*\*(.*?)\*\*/g,
'<strong>$1</strong>')`. -/
def boldPassStep (rec : List Char → Except String (List Char)) :
    List Char → Except String (List Char)
  | [] => .ok []
  | c :: rest =>
    match rest with
    | c2 :: rest2 =>
      if c = '*' ∧ c2 = '*' then
        match findCloseSS rest2 with
        | some p => do
          let t ← rec p.2
          .ok ("<strong>".data ++ p.1 ++ "</strong>".data ++ t)
        | none => do
          let t ← rec (c2 :: rest2)
          .ok (c :: t)
      else do
        let t ← rec (c2 :: rest2)
        .ok (c :: t)
    | [] => .ok [c]

/-- Fuel recursion for `boldPassStep`. -/
def boldPass : Nat → List Char → Except String (List Char)
  | 0, _ => .error "fuel exhausted"
  | fuel + 1, s => boldPassStep (boldPass fuel) s

/-- The negative lookahead `(?![^<]*>)` of the italic regex succeeds iff no
`>` occurs before the first `<` in what follows. -/
def lookaheadOK (t : List Char) : Bool :=
  (t.takeWhile (fun c => !(c == '<'))).all (fun c => !(c == '>'))

/-- State update for the variable-length negative lookbehind `(?<!<[^>]*)`:
the lookbehind matches (so the italic match is blocked) exactly when the most
recent angle bracket before the position is `<`. -/
def angleUpd (b : Bool) (c : Char) : Bool :=
  if c == '<' then true else if c == '>' then false else b

/-- Lazy search for a closing `*` of `/(?<!<[^>]*)\*(.*?)\*(?![^<]*>)/`:
earliest `*` whose following context passes the negative lookahead; content
chars are `.` (no line terminators) and may include rejected `*`s. -/
def findEmClose : List Char → Option (List Char × List Char)
  | [] => none
  | c :: rest =>
    if c = '*' then
      if lookaheadOK rest then some ([], rest)
      else (findEmClose rest).map (fun p => (c :: p.1, p.2))
    else if dotChar c then (findEmClose rest).map (fun p => (c :: p.1, p.2))
    else none

/-- Pass 5 (line 64): `formattedMsg.replace(/(?<!<[^>]*)\*(.*?)\*(?![^<]*>)/g,
'<em>$1</em>')`.  `inTag` carries the lookbehind state over the characters
already scanned (replacement output never affects regex state). -/
def italicPassStep (rec : Bool → List Char → Except String (List Char)) :
    Bool → List Char → Except String (List Char)
  | _, [] => .ok []
  | inTag, c :: rest =>
    if c = '*' then
      if inTag then do
        let t ← rec inTag rest
        .ok (c :: t)
      else
        match findEmClose rest with
        | some p => do
          let t ← rec (p.1.foldl angleUpd inTag) p.2
          .ok ("<em>".data ++ p.1 ++ "</em>".data ++ t)
        | none => do
          let t ← rec inTag rest
          .ok (c :: t)
    else do
      let t ← rec (angleUpd inTag c) rest
      .ok (c :: t)

/-- Fuel recursion for `italicPassStep`. -/
def italicPass : Nat → Bool → List Char → Except String (List Char)
  | 0, _, _ => .error "fuel exhausted"
  | fuel + 1, inTag, s => italicPassStep (italicPass fuel) inTag s

/-- The `\s+.+` tail of a list-item pattern at `s`, returning the characters
consumed.  Greedy `\s+` backtracks only when `.+` would have nothing left
(then the longest whitespace prefix whose next char is a non-terminator is
kept and `.+` eats from inside the whitespace run). -/
def afterMarkerCore (s : List Char) : Option Nat :=
  if (s.takeWhile jsWhite).isEmpty then none
  else
    match s.dropWhile jsWhite with
    | _ :: _ =>
      some ((s.takeWhile jsWhite).length + ((s.dropWhile jsWhite).takeWhile dotChar).length)
    | [] =>
      match ((List.range (s.takeWhile jsWhite).length).filter
          (fun j => decide (0 < j) && dotChar ((s.takeWhile jsWhite).getD j ' '))).getLast? with
      | some j => some (j + (((s.takeWhile jsWhite).drop j).takeWhile dotChar).length)
      | none => none

/-- `\s*[-*]\s+.+` at `s` (one unordered-list item, without the trailing
`\n?`): characters consumed.  `\s*` is forcedly maximal (a shorter prefix
would leave a whitespace char where `[-*]` is required). -/
def ulItemCore (s : List Char) : Option Nat :=
  match s.dropWhile jsWhite with
  | m :: s2 =>
    if m == '-' || m == '*' then
      (afterMarkerCore s2).map (fun k => (s.takeWhile jsWhite).length + 1 + k)
    else none
  | [] => none

/-- `\s*\d+\.\s+.+` at `s` (one ordered-list item, without the trailing
`\n?`): characters consumed.  `\d+` is forcedly maximal (a shorter run leaves
a digit where `\.` is required). -/
def olItemCore (s : List Char) : Option Nat :=
  if ((s.dropWhile jsWhite).takeWhile jsDigit).isEmpty then none
  else
    match (s.dropWhile jsWhite).dropWhile jsDigit with
    | '.' :: s2 =>
      (afterMarkerCore s2).map (fun k =>
        (s.takeWhile jsWhite).length + ((s.dropWhile jsWhite).takeWhile jsDigit).length + 1 + k)
    | _ => none

/-- Extend an item match by the optional trailing newline (`\n?`). -/
def withOptNl (s : List Char) (k : Nat) : Nat :=
  if (s.drop k).headD 'x' == '\n' then k + 1 else k

/-- One iteration of `(?:^\s*[-*]\s+.+\n?)+` (the `^` of the first iteration
is checked by the caller). -/
def ulItemMatchAt (s : List Char) : Option Nat := (ulItemCore s).map (withOptNl s)

/-- One iteration of `(?:^\s*\d+\.\s+.+\n?)+`. -/
def olItemMatchAt (s : List Char) : Option Nat := (olItemCore s).map (withOptNl s)

/-- A line match of `/^\s*[-*]\s+(.+)$/gm` used by the callback's
`listBlock.match`; the `$` always holds after a maximal `.+`. -/
def ulLineMatchAt (atLS : Bool) (s : List Char) : Option Nat :=
  if atLS then ulItemCore s else none

/-- A line match of `/^\s*\d+\.\s+(.+)$/gm`. -/
def olLineMatchAt (atLS : Bool) (s : List Char) : Option Nat :=
  if atLS then olItemCore s else none

/-- `item.replace(/^\s*[-*]\s+/, '')`: strip the marker prefix when the
(string-anchored) pattern matches, else leave the item unchanged. -/
def ulStrip (item : List Char) : List Char :=
  match item.dropWhile jsWhite with
  | m :: a1 =>
    if (m == '-' || m == '*') && !(a1.takeWhile jsWhite).isEmpty then a1.dropWhile jsWhite
    else item
  | [] => item

/-- `item.replace(/^\s*\d+\.\s+/, '')`. -/
def olStrip (item : List Char) : List Char :=
  if ((item.dropWhile jsWhite).takeWhile jsDigit).isEmpty then item
  else
    match (item.dropWhile jsWhite).dropWhile jsDigit with
    | '.' :: a2 => if (a2.takeWhile jsWhite).isEmpty then item else a2.dropWhile jsWhite
    | _ => item

/-- `<li>` rendering shared by both list callbacks. -/
def liRender (strip : List Char → List Char) (items : List (List Char)) : List Char :=
  (items.map (fun it => "<li>".data ++ jsTrim (strip it) ++ "</li>".data)).flatten

/-- The unordered-list callback (lines 69–83 of the source). -/
def ulCallback (block : List Char) : Except String (List Char) := do
  let items ← collectG ulLineMatchAt (block.length + 1) true block
  .ok ("<ul>".data ++ liRender ulStrip items ++ "</ul>".data)

/-- The ordered-list callback (lines 87–101 of the source). -/
def olCallback (block : List Char) : Except String (List Char) := do
  let items ← collectG olLineMatchAt (block.length + 1) true block
  .ok ("<ol>".data ++ liRender olStrip items ++ "</ol>".data)

/-- Following iterations of the `+` over list items: each must start at a
line start (its `^`), i.e. right after a consumed `\n`. -/
def listLoopStep (itemMatchAt : List Char → Option Nat) (rec : List Char → Except String Nat)
    (s : List Char) : Except String Nat :=
  match itemMatchAt s with
  | none => .ok 0
  | some k =>
    if isLineTerm ((s.take k).getLastD 'x') then do
      let n ← rec (s.drop k)
      .ok (k + n)
    else .ok k

/-- Fuel recursion for `listLoopStep` with the unordered-item matcher. -/
def ulLoop : Nat → List Char → Except String Nat
  | 0, _ => .error "fuel exhausted"
  | fuel + 1, s => listLoopStep ulItemMatchAt (ulLoop fuel) s

/-- Fuel recursion for `listLoopStep` with the ordered-item matcher. -/
def olLoop : Nat → List Char → Except String Nat
  | 0, _ => .error "fuel exhausted"
  | fuel + 1, s => listLoopStep olItemMatchAt (olLoop fuel) s

/-- Match attempt of the unordered-list pass
`/((?:^\s*[-*]\s+.+\n?)+)/gm` at one position. -/
def ulMatchAt (atLS : Bool) (s : List Char) : Except String (Option (Nat × List Char)) :=
  if atLS then
    match ulItemMatchAt s with
    | none => .ok none
    | some k => do
      let n ←
        if isLineTerm ((s.take k).getLastD 'x') then ulLoop (s.length + 1) (s.drop k)
        else .ok 0
      let repl ← ulCallback (s.take (k + n))
      .ok (some (k + n, repl))
  else .ok none

/-- Match attempt of the ordered-list pass `/((?:^\s*\d+\.\s+.+\n?)+)/gm`. -/
def olMatchAt (atLS : Bool) (s : List Char) : Except String (Option (Nat × List Char)) :=
  if atLS then
    match olItemMatchAt s with
    | none => .ok none
    | some k => do
      let n ←
        if isLineTerm ((s.take k).getLastD 'x') then olLoop (s.length + 1) (s.drop k)
        else .ok 0
      let repl ← olCallback (s.take (k + n))
      .ok (some (k + n, repl))
  else .ok none

/-- Match of `/\n\s*\n/` given the characters after a leading `\n`:
`some m` means the match extends `m` more characters (greedy `\s*`
backtracking to leave a final `\n`). -/
def paraMatch (rest : List Char) : Option Nat :=
  match ((List.range (rest.takeWhile jsWhite).length).filter
      (fun j => (rest.takeWhile jsWhite).getD j 'x' == '\n')).getLast? with
  | some j => some (j + 1)
  | none => none

def paraPassStep (rec : List Char → Except String (List Char)) :
    List Char → Except String (List Char)
  | [] => .ok []
  | c :: rest =>
    if c = '\n' then
      match paraMatch rest with
      | some m => do
        let t ← rec (rest.drop m)
        .ok ("</p><p>".data ++ t)
      | none => do
        let t ← rec rest
        .ok (c :: t)
    else do
      let t ← rec rest
      .ok (c :: t)

/-- Fuel recursion for `paraPassStep`. -/
def paraPass : Nat → List Char → Except String (List Char)
  | 0, _ => .error "fuel exhausted"
  | fuel + 1, s => paraPassStep (paraPass fuel) s

/-- Pass 9 (line 107): `formattedMsg.replace(/\n/g, '<br>')`. -/
def brPass : List Char → List Char
  | [] => []
  | c :: rest => if c = '\n' then "<br>".data ++ brPass rest else c :: brPass rest

/-- The pipeline of passes 1–9 (everything before the final `<p>` wrap). -/
def preWrapE (s : List Char) : Except String (List Char) := do
  let s1 ← scanG tableMatchAtFn (s.length + 1) true s
  let s2 ← fencePass (s1.length + 1) s1
  let s3 ← inlineCodePass (s2.length + 1) s2
  let s4 ← boldPass (s3.length + 1) s3
  let s5 ← italicPass (s4.length + 1) false s4
  let s6 ← scanG ulMatchAt (s5.length + 1) true s5
  let s7 ← scanG olMatchAt (s6.length + 1) true s6
  let s8 ← paraPass (s7.length + 1) s7
  .ok (brPass s8)

/-- The whole of `formatMessage` (lines 2–115): `none` stands for a missing
(`null`/`undefined`) argument; `!message` is true exactly for those and for
the empty string.  Pass 10 wraps in `<p>…</p>` unless the result already
starts with `<`. -/
def formatMessageE (m : Option String) : Except String String :=
  match m with
  | none => .ok ""
  | some str =>
    if str = "" then .ok ""
    else do
      let t ← preWrapE str.data
      .ok (String.mk (if t.head? = some '<' then t else
        '<' :: 'p' :: '>' :: (t ++ "</p>".data)))

/-- No unordered-list item can start here: after leading whitespace there is
no `-`/`*` marker. -/
def ulFreeAt (t : List Char) : Bool :=
  match t.dropWhile jsWhite with
  | m :: _ => !(m == '-' || m == '*')
  | [] => true

/-- No ordered-list item can start here: after leading whitespace there is no
digit run followed by a dot (the `\s*\d+\.` prefix of the item pattern). -/
def olFreeAt (t : List Char) : Bool :=
  ((t.dropWhile jsWhite).takeWhile jsDigit).isEmpty ||
    !(((t.dropWhile jsWhite).dropWhile jsDigit).headD 'x' == '.')

/-- At this suffix, if it follows a line terminator, no unordered item
starts. -/
def ulLineFree : List Char → Bool
  | c :: s' => !(isLineTerm c) || ulFreeAt s'
  | [] => true

/-- At this suffix, if it follows a line terminator, no ordered item
starts. -/
def olLineFree : List Char → Bool
  | c :: s' => !(isLineTerm c) || olFreeAt s'
  | [] => true

/-- No `\n\s*\n` (blank-line) match starts at this suffix. -/
def paraFreeAt : List Char → Bool
  | '\n' :: r => (paraMatch r).isNone
  | _ => true

/-- A character that cannot take part in any marker: not a backtick, not an
asterisk, not a pipe, not a line terminator. -/
def plainChar (c : Char) : Bool :=
  !(c == tick) && !(c == '*') && !(c == '|') && !(isLineTerm c)

theorem dropWhile_len_le {α : Type} (p : α → Bool) (l : List α) :
    (l.dropWhile p).length ≤ l.length := by
  induction l with
  | nil => simp [List.dropWhile]
  | cons c r ih =>
    by_cases h : p c
    · simp [List.dropWhile, h]; omega
    · simp [List.dropWhile, h]

theorem findFence_len : ∀ {s a r : List Char}, findFence s = some (a, r) → r.length ≤ s.length := by
  intro s
  induction s with
  | nil => intro a r h; simp [findFence] at h
  | cons c rest ih =>
    intro a r h
    rw [findFence] at h
    split at h
    · injection h with h'
      injection h' with h1 h2
      subst h2
      have := List.length_drop 2 rest
      simp [this]
      omega
    · match hf : findFence rest with
      | none => rw [hf] at h; simp at h
      | some p =>
        rw [hf] at h; simp at h
        have := ih (a := p.1) (r := p.2) (by rw [hf])
        simp [← h.2]
        omega

theorem findCloseSS_len : ∀ {s a r : List Char}, findCloseSS s = some (a, r) → r.length ≤ s.length := by
  intro s
  induction s with
  | nil => intro a r h; simp [findCloseSS] at h
  | cons c rest ih =>
    intro a r h
    rw [findCloseSS.eq_def] at h
    match hrest : rest with
    | [] => simp at h
    | c2 :: rest2 =>
      simp only at h
      split at h
      · injection h with h'
        injection h' with h1 h2
        subst h2; simp; omega
      · split at h
        · match hf : findCloseSS (c2 :: rest2) with
          | none => rw [hf] at h; simp at h
          | some p =>
            rw [hf] at h; simp at h
            have := ih (a := p.1) (r := p.2) hf
            rw [← h.2]
            simp only [List.length_cons] at this ⊢
            omega
        · simp at h

theorem findEmClose_len : ∀ {s a r : List Char}, findEmClose s = some (a, r) → r.length ≤ s.length := by
  intro s
  induction s with
  | nil => intro a r h; simp [findEmClose] at h
  | cons c rest ih =>
    intro a r h
    simp only [findEmClose] at h
    by_cases hc : c = '*'
    · rw [if_pos hc] at h
      cases hl : lookaheadOK rest with
      | true =>
        rw [hl, if_pos rfl] at h
        injection h with h'
        injection h' with h1 h2
        subst h2
        simp
      | false =>
        rw [hl] at h
        simp only [Bool.false_eq_true, if_false] at h
        match hf : findEmClose rest with
        | none => rw [hf] at h; simp at h
        | some p =>
          rw [hf] at h
          simp at h
          have := ih (a := p.1) (r := p.2) hf
          rw [← h.2]
          simp only [List.length_cons]
          omega
    · rw [if_neg hc] at h
      by_cases hd : dotChar c = true
      · rw [if_pos hd] at h
        match hf : findEmClose rest with
        | none => rw [hf] at h; simp at h
        | some p =>
          rw [hf] at h
          simp at h
          have := ih (a := p.1) (r := p.2) hf
          rw [← h.2]
          simp only [List.length_cons]
          omega
      · rw [if_neg hd] at h
        simp at h

/-- C3: `format(null)` and `format("")` both return the empty string. -/
theorem c3_empty_and_null :
    formatMessageE none = .ok "" ∧ formatMessageE (some "") = .ok "" :=
  ⟨rfl, rfl⟩

/-- C5: `` `x` `` becomes `<code>x</code>`, and a fenced block ```` ```y``` ````
becomes `<pre><code>y</code></pre>`. -/
theorem c5_inline_and_fenced_code :
    formatMessageE (some "`x`") = .ok "<code>x</code>" ∧
    formatMessageE (some "```y```") = .ok "<pre><code>y</code></pre>" :=
  ⟨rfl, rfl⟩

/-- C6: `**bold**` becomes `<strong>bold</strong>` and `*italic*` becomes
`<em>italic</em>`. -/
theorem c6_bold_and_italic :
    formatMessageE (some "**bold**") = .ok "<strong>bold</strong>" ∧
    formatMessageE (some "*italic*") = .ok "<em>italic</em>" :=
  ⟨rfl, rfl⟩

/-- C7: `- a\n- b` becomes one `<ul>` with exactly the two items `a` and `b`
(not two separate lists). -/
theorem c7_unordered_list :
    formatMessageE (some "- a\n- b") = .ok "<ul><li>a</li><li>b</li></ul>" :=
  rfl

/-- C8: `1. a\n2. b` becomes one `<ol>` with exactly the two items `a` and
`b`. -/
theorem c8_ordered_list :
    formatMessageE (some "1. a\n2. b") = .ok "<ol><li>a</li><li>b</li></ol>" :=
  rfl

/-- C1: what the code actually does on the round-trip table input.  The
greedy `\s*` before `(?:\n\|[^\n]+\|\s*)*` swallows the newline the group
needs, so the group never iterates: the match ends after the separator row,
`rows` always has exactly two entries, the data-row loop (`i = 2 ..`) is dead,
and `<tbody>` is always empty while the data row survives as plain text.  The
trailing `|` of the header also yields a third, empty `<th>` (the
`index === 0` guard only drops a leading empty cell).  This contradicts the
claimed two-header-cells/one-body-row output and the code's own comments
(lines 6–8 and 36–37 of the source). -/
theorem c1_table_code_behavior :
    formatMessageE (some "| A | B |\n|---|---|\n| 1 | 2 |") =
      .ok ("<table class=\"table table-bordered table-dark table-sm\"><thead>" ++
        "<tr><th>A</th><th>B</th><th></th></tr></thead><tbody></tbody></table>| 1 | 2 |") :=
  rfl

theorem runLen_le (p : Char → Bool) : ∀ s : List Char, runLen p s ≤ s.length := by
  intro s
  induction s with
  | nil => simp [runLen]
  | cons c r ih =>
    rw [runLen]
    split
    · simp; omega
    · simp

theorem mem_plusSplits {p : Char → Bool} {s : List Char} {k : Nat} {r : List Char}
    (h : (k, r) ∈ plusSplits p s) : 1 ≤ k ∧ k ≤ s.length ∧ r = s.drop k := by
  simp only [plusSplits, List.mem_map, List.mem_reverse, List.mem_range] at h
  obtain ⟨i, hi, heq⟩ := h
  injection heq with h1 h2
  have := runLen_le p s
  subst h1
  exact ⟨by omega, by omega, h2.symm⟩

theorem mem_starSplits {p : Char → Bool} {s : List Char} {k : Nat} {r : List Char}
    (h : (k, r) ∈ starSplits p s) : k ≤ s.length ∧ r = s.drop k := by
  simp only [starSplits, List.mem_map, List.mem_reverse, List.mem_range] at h
  obtain ⟨i, hi, heq⟩ := h
  injection heq with h1 h2
  have := runLen_le p s
  subst h1
  exact ⟨by omega, h2.symm⟩

theorem mem_plusSplits_len {p : Char → Bool} {s : List Char} {k : Nat} {r : List Char}
    (h : (k, r) ∈ plusSplits p s) : r.length < s.length := by
  obtain ⟨h1, h2, h3⟩ := mem_plusSplits h
  subst h3
  rw [List.length_drop]
  omega

theorem mem_starSplits_len {p : Char → Bool} {s : List Char} {k : Nat} {r : List Char}
    (h : (k, r) ∈ starSplits p s) : r.length ≤ s.length := by
  obtain ⟨h1, h2⟩ := mem_starSplits h
  subst h2
  rw [List.length_drop]
  omega

theorem firstSomeE_ok {α β : Type} {l : List α} {f : α → Except String (Option β)}
    (h : ∀ a ∈ l, ∃ o, f a = .ok o) : ∃ o, firstSomeE l f = .ok o := by
  induction l with
  | nil => exact ⟨none, rfl⟩
  | cons a t ih =>
    obtain ⟨o, ho⟩ := h a (List.mem_cons_self a t)
    rw [firstSomeE, ho]
    match o with
    | some b => exact ⟨some b, rfl⟩
    | none =>
      exact ih (fun x hx => h x (List.mem_cons_of_mem a hx))

theorem firstSomeE_ok_some {α β : Type} {l : List α} {f : α → Except String (Option β)} {b : β}
    (h : firstSomeE l f = .ok (some b)) : ∃ a ∈ l, f a = .ok (some b) := by
  induction l with
  | nil => simp [firstSomeE] at h
  | cons a t ih =>
    rw [firstSomeE] at h
    match hfa : f a with
    | .error e => rw [hfa] at h; simp at h
    | .ok (some b') =>
      rw [hfa] at h
      injection h with h'
      injection h' with h''
      subst h''
      exact ⟨a, List.mem_cons_self a t, hfa⟩
    | .ok none =>
      rw [hfa] at h
      obtain ⟨x, hx, hfx⟩ := ih h
      exact ⟨x, List.mem_cons_of_mem a hx, hfx⟩

theorem mapM_ok {α β : Type} {l : List α} {f : α → Except String β}
    (h : ∀ a ∈ l, ∃ b, f a = .ok b) : ∃ bs, l.mapM f = .ok bs := by
  induction l with
  | nil => exact ⟨[], rfl⟩
  | cons a t ih =>
    obtain ⟨b, hb⟩ := h a (List.mem_cons_self a t)
    obtain ⟨bs, hbs⟩ := ih (fun x hx => h x (List.mem_cons_of_mem a hx))
    refine ⟨b :: bs, ?_⟩
    rw [List.mapM_cons]
    rw [hb, hbs]
    rfl

theorem exceptBind_ok {α β : Type} (a : α) (f : α → Except String β) :
    (Except.ok a >>= f) = f a := rfl

theorem groupStarStep_ok (rec : List Char → Except String Nat) (s : List Char)
    (hrec : ∀ r : List Char, r.length < s.length → ∃ n, rec r = .ok n) :
    ∃ n, groupStarStep rec s = .ok n := by
  rw [groupStarStep.eq_def]
  split
  · rename_i s2
    have hfse : ∃ o, firstSomeE (plusSplits notNl s2) (fun kr =>
        match kr.2 with
        | '|' :: r1 =>
          firstSomeE (starSplits jsWhite r1) (fun wr => do
            let n ← rec wr.2
            .ok (some (2 + kr.1 + 1 + wr.1 + n)))
        | _ => .ok none) = .ok o := by
      apply firstSomeE_ok
      intro a ha
      have hlen : a.2.length < s2.length := mem_plusSplits_len ha
      match ha2 : a.2 with
      | [] => exact ⟨none, rfl⟩
      | c :: r1 =>
        by_cases hc : c = '|'
        · subst hc
          show ∃ o, firstSomeE (starSplits jsWhite r1) (fun wr => do
            let n ← rec wr.2
            .ok (some (2 + a.1 + 1 + wr.1 + n))) = .ok o
          apply firstSomeE_ok
          intro w hw
          have hwlen : w.2.length ≤ r1.length := mem_starSplits_len hw
          rw [ha2] at hlen
          simp only [List.length_cons] at hlen
          have hw2 : w.2.length < ('\n' :: '|' :: s2 : List Char).length := by
            simp only [List.length_cons]
            omega
          obtain ⟨n, hn⟩ := hrec w.2 hw2
          refine ⟨some (2 + a.1 + 1 + w.1 + n), ?_⟩
          show (rec w.2 >>= fun n => .ok (some (2 + a.1 + 1 + w.1 + n))) = _
          rw [hn, exceptBind_ok]
        · split
          · rename_i heq
            injection heq with heq1 heq2
            exact absurd heq1 hc
          · exact ⟨none, rfl⟩
    obtain ⟨o, ho⟩ := hfse
    refine ⟨o.getD 0, ?_⟩
    show (firstSomeE _ _ >>= fun r => Except.ok (r.getD 0)) = _
    rw [ho, exceptBind_ok]
  · exact ⟨0, rfl⟩

theorem exceptBind_error {α β : Type} (e : String) (f : α → Except String β) :
    ((Except.error e : Except String α) >>= f) = .error e := rfl

theorem groupStar_ok : ∀ fuel s, s.length < fuel → ∃ n, groupStar fuel s = .ok n := by
  intro fuel
  induction fuel with
  | zero => intro s h; omega
  | succ fuel ih =>
    intro s h
    rw [groupStar]
    exact groupStarStep_ok _ s (fun r hr => ih r (by omega))

theorem tableMatchAtCore_ok (s : List Char) : ∃ o, tableMatchAtCore s = .ok o := by
  rw [tableMatchAtCore.eq_def]
  split
  · apply firstSomeE_ok
    intro a _
    split
    · apply firstSomeE_ok
      intro w1 _
      split
      · apply firstSomeE_ok
        intro b _
        split
        · apply firstSomeE_ok
          intro c _
          split
          · apply firstSomeE_ok
            intro w2 _
            obtain ⟨n, hn⟩ := groupStar_ok (w2.2.length + 1) w2.2 (by omega)
            refine ⟨some (6 + a.1 + w1.1 + b.1 + c.1 + w2.1 + n), ?_⟩
            show (groupStar (w2.2.length + 1) w2.2 >>=
              fun n => .ok (some (6 + a.1 + w1.1 + b.1 + c.1 + w2.1 + n))) = _
            rw [hn, exceptBind_ok]
          · exact ⟨none, rfl⟩
        · exact ⟨none, rfl⟩
      · exact ⟨none, rfl⟩
    · exact ⟨none, rfl⟩
  · exact ⟨none, rfl⟩

theorem tableMatchAtCore_pipe {s : List Char} {n : Nat}
    (h : tableMatchAtCore s = .ok (some n)) : ∃ s', s = '|' :: s' := by
  rw [tableMatchAtCore.eq_def] at h
  split at h
  · rename_i s1
    exact ⟨s1, rfl⟩
  · simp at h

theorem tableMatchAtCore_pos {s : List Char} {n : Nat}
    (h : tableMatchAtCore s = .ok (some n)) : 1 ≤ n := by
  rw [tableMatchAtCore.eq_def] at h
  split at h
  · obtain ⟨a, ha, h⟩ := firstSomeE_ok_some h
    split at h
    · obtain ⟨w1, hw1, h⟩ := firstSomeE_ok_some h
      split at h
      · obtain ⟨b, hb, h⟩ := firstSomeE_ok_some h
        split at h
        · obtain ⟨c, hc, h⟩ := firstSomeE_ok_some h
          split at h
          · obtain ⟨w2, hw2, h⟩ := firstSomeE_ok_some h
            match hg : groupStar (w2.2.length + 1) w2.2 with
            | .error e =>
              rw [show (do
                let n ← groupStar (w2.2.length + 1) w2.2
                Except.ok (some (6 + a.1 + w1.1 + b.1 + c.1 + w2.1 + n))) =
                  (groupStar (w2.2.length + 1) w2.2 >>=
                    fun n => Except.ok (some (6 + a.1 + w1.1 + b.1 + c.1 + w2.1 + n)))
                from rfl, hg, exceptBind_error] at h
              simp at h
            | .ok m =>
              rw [show (do
                let n ← groupStar (w2.2.length + 1) w2.2
                Except.ok (some (6 + a.1 + w1.1 + b.1 + c.1 + w2.1 + n))) =
                  (groupStar (w2.2.length + 1) w2.2 >>=
                    fun n => Except.ok (some (6 + a.1 + w1.1 + b.1 + c.1 + w2.1 + n)))
                from rfl, hg, exceptBind_ok] at h
              injection h with h'
              injection h' with h''
              omega
          · simp at h
        · simp at h
      · simp at h
    · simp at h
  · simp at h

theorem cellMatches_ok : ∀ fuel s, s.length < fuel → ∃ t, cellMatches fuel s = .ok t := by
  intro fuel
  induction fuel with
  | zero => intro s h; omega
  | succ fuel ih =>
    intro s h
    rw [cellMatches]
    rw [cellMatchesStep.eq_def]
    split
    · exact ⟨[], rfl⟩
    · rename_i c rest
      split
      · have hlen := dropWhile_len_le (fun x => !(x == '|')) rest
        obtain ⟨t, ht⟩ := ih (rest.dropWhile (fun x => !(x == '|'))) (by
          simp only [List.length_cons] at h
          omega)
        refine ⟨('|' :: rest.takeWhile (fun x => !(x == '|'))) :: t, ?_⟩
        show (cellMatches fuel (rest.dropWhile (fun x => !(x == '|'))) >>= fun t =>
          .ok (('|' :: rest.takeWhile (fun x => !(x == '|'))) :: t)) = _
        rw [ht, exceptBind_ok]
      · exact ih rest (by simp only [List.length_cons] at h; omega)

theorem dropWhile_append_one_ne {α : Type} {p : α → Bool} {x : α} (hx : p x = false) :
    ∀ xs : List α, (xs ++ [x]).dropWhile p ≠ [] := by
  intro xs
  induction xs with
  | nil =>
    simp [List.dropWhile, hx]
  | cons c t ih =>
    rw [List.cons_append, List.dropWhile_cons]
    split
    · exact ih
    · simp

theorem jsTrim_pipe_ne (l : List Char) : jsTrim ('|' :: l) ≠ [] := by
  unfold jsTrim
  have h1 : List.dropWhile jsWhite ('|' :: l) = '|' :: l := by
    rw [List.dropWhile_cons]
    simp [show jsWhite '|' = false from by decide]
  rw [h1]
  have h2 : ('|' :: l).reverse = l.reverse ++ ['|'] := by simp
  rw [h2]
  intro hcontra
  rw [List.reverse_eq_nil_iff] at hcontra
  exact dropWhile_append_one_ne (by decide) l.reverse hcontra

theorem splitNl_pipe (l : List Char) : ∃ x xs, splitNl ('|' :: l) = ('|' :: x) :: xs := by
  rw [splitNl.eq_def]
  split
  · rename_i heq
    simp at heq
  · rename_i r heq
    injection heq with h1 _
    exact absurd h1 (by decide)
  · rename_i c r heq
    injection heq with h1 h2
    subst h1 h2
    match splitNl l with
    | [] => exact ⟨[], [], rfl⟩
    | x :: xs => exact ⟨x, xs, rfl⟩

theorem tableCallbackBody_ok (rows : List (List Char)) (r0 : List Char) :
    ∃ t, tableCallbackBody rows r0 = .ok t := by
  obtain ⟨hm, hhm⟩ := cellMatches_ok (r0.length + 1) r0 (by omega)
  obtain ⟨bs, hbs⟩ := mapM_ok (l := rows.drop 2) (f := fun row => do
      let rowMatch ← cellMatches (row.length + 1) row
      if rowMatch.isEmpty then (.ok [] : Except String (List Char))
      else .ok ("<tr>".data ++ renderCells "<td>".data "</td>".data rowMatch ++ "</tr>".data))
    (by
      intro row _
      obtain ⟨rm, hrm⟩ := cellMatches_ok (row.length + 1) row (by omega)
      show ∃ b, (cellMatches (row.length + 1) row >>= fun rowMatch =>
        if rowMatch.isEmpty then (.ok [] : Except String (List Char))
        else .ok ("<tr>".data ++ renderCells "<td>".data "</td>".data rowMatch ++ "</tr>".data)) = .ok b
      rw [hrm, exceptBind_ok]
      split
      · exact ⟨[], rfl⟩
      · exact ⟨_, rfl⟩)
  unfold tableCallbackBody
  simp only [hhm, exceptBind_ok]
  simp only [hbs, exceptBind_ok]
  exact ⟨_, rfl⟩

theorem tableCallback_ok (l : List Char) : ∃ t, tableCallback ('|' :: l) = .ok t := by
  obtain ⟨x, xs, hx⟩ := splitNl_pipe l
  unfold tableCallback
  rw [hx, List.filter_cons]
  have hcond : (!(jsTrim ('|' :: x)).isEmpty) = true := by
    match hl : jsTrim ('|' :: x) with
    | [] => exact absurd hl (jsTrim_pipe_ne x)
    | c :: t => rfl
  rw [if_pos hcond]
  exact tableCallbackBody_ok (('|' :: x) :: List.filter (fun r => !(jsTrim r).isEmpty) xs)
    ('|' :: x)

theorem tableMatchAtFn_ok (b : Bool) (s : List Char) : ∃ o, tableMatchAtFn b s = .ok o := by
  obtain ⟨o, ho⟩ := tableMatchAtCore_ok s
  unfold tableMatchAtFn
  simp only [ho, exceptBind_ok]
  match o with
  | none => exact ⟨none, rfl⟩
  | some n =>
    obtain ⟨s', hs'⟩ := tableMatchAtCore_pipe ho
    have hn := tableMatchAtCore_pos ho
    match n, hn with
    | n + 1, _ =>
      subst hs'
      show ∃ o, (tableCallback (List.take (n + 1) ('|' :: s')) >>=
        fun repl => Except.ok (some (n + 1, repl))) = Except.ok o
      rw [List.take_succ_cons]
      obtain ⟨t, ht⟩ := tableCallback_ok (s'.take n)
      simp only [ht, exceptBind_ok]
      exact ⟨some (n + 1, t), rfl⟩

theorem scanG_ok (matchAt : Bool → List Char → Except String (Option (Nat × List Char)))
    (hma : ∀ b s, ∃ o, matchAt b s = .ok o) :
    ∀ fuel b s, s.length < fuel → ∃ t, scanG matchAt fuel b s = .ok t := by
  intro fuel
  induction fuel with
  | zero => intro b s h; omega
  | succ fuel ih =>
    intro b s h
    rw [scanG]
    rw [scanGStep.eq_def]
    split
    · exact ⟨[], rfl⟩
    · rename_i c rest
      obtain ⟨o, ho⟩ := hma b (c :: rest)
      simp only [ho, exceptBind_ok]
      simp only [List.length_cons] at h
      match o with
      | none =>
        obtain ⟨t, ht⟩ := ih (isLineTerm c) rest (by omega)
        simp only [ht, exceptBind_ok]
        exact ⟨c :: t, rfl⟩
      | some (0, repl) =>
        obtain ⟨t, ht⟩ := ih (isLineTerm c) rest (by omega)
        simp only [ht, exceptBind_ok]
        exact ⟨repl ++ c :: t, rfl⟩
      | some (k + 1, repl) =>
        have hdrop := List.length_drop k rest
        obtain ⟨t, ht⟩ := ih (isLineTerm (((c :: rest).take (k + 1)).getLastD 'x'))
          (rest.drop k) (by omega)
        simp only [ht, exceptBind_ok]
        exact ⟨repl ++ t, rfl⟩

theorem collectG_ok (matchAt : Bool → List Char → Option Nat) :
    ∀ fuel b s, s.length < fuel → ∃ t, collectG matchAt fuel b s = .ok t := by
  intro fuel
  induction fuel with
  | zero => intro b s h; omega
  | succ fuel ih =>
    intro b s h
    rw [collectG]
    rw [collectGStep.eq_def]
    split
    · exact ⟨[], rfl⟩
    · rename_i c rest
      simp only [List.length_cons] at h
      match matchAt b (c :: rest) with
      | none => exact ih (isLineTerm c) rest (by omega)
      | some 0 =>
        obtain ⟨t, ht⟩ := ih (isLineTerm c) rest (by omega)
        simp only [ht, exceptBind_ok]
        exact ⟨[] :: t, rfl⟩
      | some (k + 1) =>
        have hdrop := List.length_drop k rest
        obtain ⟨t, ht⟩ := ih (isLineTerm (((c :: rest).take (k + 1)).getLastD 'x'))
          (rest.drop k) (by omega)
        simp only [ht, exceptBind_ok]
        exact ⟨(c :: rest).take (k + 1) :: t, rfl⟩

theorem ulItemCore_pos {s : List Char} {k : Nat} (h : ulItemCore s = some k) : 1 ≤ k := by
  unfold ulItemCore at h
  split at h
  · rename_i m s2 heq
    split at h
    · rw [Option.map_eq_some'] at h
      obtain ⟨k', _, hk⟩ := h
      omega
    · simp at h
  · simp at h

theorem olItemCore_pos {s : List Char} {k : Nat} (h : olItemCore s = some k) : 1 ≤ k := by
  unfold olItemCore at h
  split at h
  · simp at h
  · split at h
    · rw [Option.map_eq_some'] at h
      obtain ⟨k', _, hk⟩ := h
      omega
    · simp at h

theorem ulItemMatchAt_pos {s : List Char} {k : Nat} (h : ulItemMatchAt s = some k) : 1 ≤ k := by
  unfold ulItemMatchAt at h
  rw [Option.map_eq_some'] at h
  obtain ⟨k', hk', hk⟩ := h
  have := ulItemCore_pos hk'
  unfold withOptNl at hk
  split at hk <;> omega

theorem olItemMatchAt_pos {s : List Char} {k : Nat} (h : olItemMatchAt s = some k) : 1 ≤ k := by
  unfold olItemMatchAt at h
  rw [Option.map_eq_some'] at h
  obtain ⟨k', hk', hk⟩ := h
  have := olItemCore_pos hk'
  unfold withOptNl at hk
  split at hk <;> omega

theorem ulLoop_ok : ∀ fuel s, s.length < fuel → ∃ n, ulLoop fuel s = .ok n := by
  intro fuel
  induction fuel with
  | zero => intro s h; omega
  | succ fuel ih =>
    intro s h
    rw [ulLoop]
    unfold listLoopStep
    match hm : ulItemMatchAt s with
    | none => exact ⟨0, rfl⟩
    | some k =>
      show ∃ m, (if isLineTerm ((s.take k).getLastD 'x') = true then
          (ulLoop fuel (s.drop k) >>= fun n => Except.ok (k + n))
        else Except.ok k) = Except.ok m
      have hk := ulItemMatchAt_pos hm
      have hs : s ≠ [] := by
        intro hnil
        subst hnil
        rw [show ulItemMatchAt [] = none from rfl] at hm
        simp at hm
      have hslen : 1 ≤ s.length := by
        cases s
        · exact absurd rfl hs
        · simp
      by_cases hlt : isLineTerm ((s.take k).getLastD 'x') = true
      · rw [if_pos hlt]
        have hdrop := List.length_drop k s
        obtain ⟨n, hn⟩ := ih (s.drop k) (by omega)
        show ∃ m, (ulLoop fuel (s.drop k) >>= fun n => Except.ok (k + n)) = .ok m
        rw [hn, exceptBind_ok]
        exact ⟨k + n, rfl⟩
      · rw [if_neg hlt]
        exact ⟨k, rfl⟩

theorem olLoop_ok : ∀ fuel s, s.length < fuel → ∃ n, olLoop fuel s = .ok n := by
  intro fuel
  induction fuel with
  | zero => intro s h; omega
  | succ fuel ih =>
    intro s h
    rw [olLoop]
    unfold listLoopStep
    match hm : olItemMatchAt s with
    | none => exact ⟨0, rfl⟩
    | some k =>
      show ∃ m, (if isLineTerm ((s.take k).getLastD 'x') = true then
          (olLoop fuel (s.drop k) >>= fun n => Except.ok (k + n))
        else Except.ok k) = Except.ok m
      have hk := olItemMatchAt_pos hm
      have hs : s ≠ [] := by
        intro hnil
        subst hnil
        rw [show olItemMatchAt [] = none from rfl] at hm
        simp at hm
      have hslen : 1 ≤ s.length := by
        cases s
        · exact absurd rfl hs
        · simp
      by_cases hlt : isLineTerm ((s.take k).getLastD 'x') = true
      · rw [if_pos hlt]
        have hdrop := List.length_drop k s
        obtain ⟨n, hn⟩ := ih (s.drop k) (by omega)
        show ∃ m, (olLoop fuel (s.drop k) >>= fun n => Except.ok (k + n)) = .ok m
        rw [hn, exceptBind_ok]
        exact ⟨k + n, rfl⟩
      · rw [if_neg hlt]
        exact ⟨k, rfl⟩

theorem ulCallback_ok (block : List Char) : ∃ t, ulCallback block = .ok t := by
  obtain ⟨items, hitems⟩ := collectG_ok ulLineMatchAt (block.length + 1) true block (by omega)
  unfold ulCallback
  simp only [hitems, exceptBind_ok]
  exact ⟨_, rfl⟩

theorem olCallback_ok (block : List Char) : ∃ t, olCallback block = .ok t := by
  obtain ⟨items, hitems⟩ := collectG_ok olLineMatchAt (block.length + 1) true block (by omega)
  unfold olCallback
  simp only [hitems, exceptBind_ok]
  exact ⟨_, rfl⟩

theorem ulMatchAt_ok (b : Bool) (s : List Char) : ∃ o, ulMatchAt b s = .ok o := by
  unfold ulMatchAt
  split
  · match hm : ulItemMatchAt s with
    | none => exact ⟨none, rfl⟩
    | some k =>
      show ∃ o, (if isLineTerm ((s.take k).getLastD 'x') = true then
          (ulLoop (s.length + 1) (s.drop k) >>= fun n =>
            (ulCallback (s.take (k + n)) >>= fun repl => Except.ok (some (k + n, repl))))
        else (Except.ok 0 >>= fun n =>
            (ulCallback (s.take (k + n)) >>= fun repl =>
              Except.ok (some (k + n, repl))))) = Except.ok o
      by_cases hlt : isLineTerm ((s.take k).getLastD 'x') = true
      · rw [if_pos hlt]
        obtain ⟨n, hn⟩ := ulLoop_ok (s.length + 1) (s.drop k)
          (by have := List.length_drop k s; omega)
        simp only [hn, exceptBind_ok]
        obtain ⟨repl, hrepl⟩ := ulCallback_ok (s.take (k + n))
        simp only [hrepl, exceptBind_ok]
        exact ⟨some (k + n, repl), rfl⟩
      · rw [if_neg hlt]
        simp only [exceptBind_ok]
        obtain ⟨repl, hrepl⟩ := ulCallback_ok (s.take (k + 0))
        simp only [hrepl, exceptBind_ok]
        exact ⟨some (k + 0, repl), rfl⟩
  · exact ⟨none, rfl⟩

theorem olMatchAt_ok (b : Bool) (s : List Char) : ∃ o, olMatchAt b s = .ok o := by
  unfold olMatchAt
  split
  · match hm : olItemMatchAt s with
    | none => exact ⟨none, rfl⟩
    | some k =>
      show ∃ o, (if isLineTerm ((s.take k).getLastD 'x') = true then
          (olLoop (s.length + 1) (s.drop k) >>= fun n =>
            (olCallback (s.take (k + n)) >>= fun repl => Except.ok (some (k + n, repl))))
        else (Except.ok 0 >>= fun n =>
            (olCallback (s.take (k + n)) >>= fun repl =>
              Except.ok (some (k + n, repl))))) = Except.ok o
      by_cases hlt : isLineTerm ((s.take k).getLastD 'x') = true
      · rw [if_pos hlt]
        obtain ⟨n, hn⟩ := olLoop_ok (s.length + 1) (s.drop k)
          (by have := List.length_drop k s; omega)
        simp only [hn, exceptBind_ok]
        obtain ⟨repl, hrepl⟩ := olCallback_ok (s.take (k + n))
        simp only [hrepl, exceptBind_ok]
        exact ⟨some (k + n, repl), rfl⟩
      · rw [if_neg hlt]
        simp only [exceptBind_ok]
        obtain ⟨repl, hrepl⟩ := olCallback_ok (s.take (k + 0))
        simp only [hrepl, exceptBind_ok]
        exact ⟨some (k + 0, repl), rfl⟩
  · exact ⟨none, rfl⟩

theorem fencePass_ok : ∀ fuel s, s.length < fuel → ∃ t, fencePass fuel s = .ok t := by
  intro fuel
  induction fuel with
  | zero => intro s h; omega
  | succ fuel ih =>
    intro s h
    rw [fencePass]
    rw [fencePassStep.eq_def]
    split
    · exact ⟨[], rfl⟩
    · rename_i c rest
      simp only [List.length_cons] at h
      split
      · match hf : findFence (rest.drop 2) with
        | some p =>
          have h1 := findFence_len hf
          have h2 := List.length_drop 2 rest
          obtain ⟨t, ht⟩ := ih p.2 (by omega)
          simp only [ht, exceptBind_ok]
          exact ⟨_, rfl⟩
        | none =>
          obtain ⟨t, ht⟩ := ih rest (by omega)
          simp only [ht, exceptBind_ok]
          exact ⟨c :: t, rfl⟩
      · obtain ⟨t, ht⟩ := ih rest (by omega)
        simp only [ht, exceptBind_ok]
        exact ⟨c :: t, rfl⟩

theorem inlineCodePass_ok : ∀ fuel s, s.length < fuel → ∃ t, inlineCodePass fuel s = .ok t := by
  intro fuel
  induction fuel with
  | zero => intro s h; omega
  | succ fuel ih =>
    intro s h
    rw [inlineCodePass]
    rw [inlineCodePassStep.eq_def]
    split
    · exact ⟨[], rfl⟩
    · rename_i c rest
      simp only [List.length_cons] at h
      by_cases hc : c = tick
      · rw [if_pos hc]
        match hd : rest.dropWhile (fun x => !(x == tick)) with
        | d :: rest2 =>
          show ∃ t, (if List.takeWhile (fun x => !(x == tick)) rest = [] then
              (inlineCodePass fuel rest >>= fun t => Except.ok (c :: t))
            else (inlineCodePass fuel rest2 >>= fun t =>
              Except.ok ("<code>".data ++ List.takeWhile (fun x => !(x == tick)) rest ++
                "</code>".data ++ t))) = Except.ok t
          have h1 := dropWhile_len_le (fun x => !(x == tick)) rest
          rw [hd] at h1
          simp only [List.length_cons] at h1
          by_cases htw : rest.takeWhile (fun x => !(x == tick)) = []
          · rw [if_pos htw]
            obtain ⟨t, ht⟩ := ih rest (by omega)
            simp only [ht, exceptBind_ok]
            exact ⟨c :: t, rfl⟩
          · rw [if_neg htw]
            obtain ⟨t, ht⟩ := ih rest2 (by omega)
            simp only [ht, exceptBind_ok]
            exact ⟨_, rfl⟩
        | [] =>
          show ∃ t, (inlineCodePass fuel rest >>= fun t => Except.ok (c :: t)) = Except.ok t
          obtain ⟨t, ht⟩ := ih rest (by omega)
          simp only [ht, exceptBind_ok]
          exact ⟨c :: t, rfl⟩
      · rw [if_neg hc]
        obtain ⟨t, ht⟩ := ih rest (by omega)
        simp only [ht, exceptBind_ok]
        exact ⟨c :: t, rfl⟩

theorem boldPass_ok : ∀ fuel s, s.length < fuel → ∃ t, boldPass fuel s = .ok t := by
  intro fuel
  induction fuel with
  | zero => intro s h; omega
  | succ fuel ih =>
    intro s h
    rw [boldPass]
    rw [boldPassStep.eq_def]
    split
    · exact ⟨[], rfl⟩
    · rename_i c rest
      split
      · rename_i c2 rest2
        simp only [List.length_cons] at h
        by_cases hss : c = '*' ∧ c2 = '*'
        · rw [if_pos hss]
          match hf : findCloseSS rest2 with
          | some p =>
            have h1 := findCloseSS_len hf
            obtain ⟨t, ht⟩ := ih p.2 (by omega)
            simp only [ht, exceptBind_ok]
            exact ⟨_, rfl⟩
          | none =>
            obtain ⟨t, ht⟩ := ih (c2 :: rest2) (by simp only [List.length_cons]; omega)
            simp only [ht, exceptBind_ok]
            exact ⟨c :: t, rfl⟩
        · rw [if_neg hss]
          obtain ⟨t, ht⟩ := ih (c2 :: rest2) (by simp only [List.length_cons]; omega)
          simp only [ht, exceptBind_ok]
          exact ⟨c :: t, rfl⟩
      · exact ⟨_, rfl⟩

theorem italicPass_ok : ∀ fuel b s, s.length < fuel → ∃ t, italicPass fuel b s = .ok t := by
  intro fuel
  induction fuel with
  | zero => intro b s h; omega
  | succ fuel ih =>
    intro b s h
    rw [italicPass]
    rw [italicPassStep.eq_def]
    split
    · exact ⟨[], rfl⟩
    · rename_i c rest
      simp only [List.length_cons] at h
      split
      · split
        · obtain ⟨t, ht⟩ := ih b rest (by omega)
          simp only [ht, exceptBind_ok]
          exact ⟨c :: t, rfl⟩
        · match hf : findEmClose rest with
          | some p =>
            have h1 := findEmClose_len hf
            obtain ⟨t, ht⟩ := ih (p.1.foldl angleUpd b) p.2 (by omega)
            simp only [ht, exceptBind_ok]
            exact ⟨_, rfl⟩
          | none =>
            obtain ⟨t, ht⟩ := ih b rest (by omega)
            simp only [ht, exceptBind_ok]
            exact ⟨c :: t, rfl⟩
      · obtain ⟨t, ht⟩ := ih (angleUpd b c) rest (by omega)
        simp only [ht, exceptBind_ok]
        exact ⟨c :: t, rfl⟩

theorem paraPass_ok : ∀ fuel s, s.length < fuel → ∃ t, paraPass fuel s = .ok t := by
  intro fuel
  induction fuel with
  | zero => intro s h; omega
  | succ fuel ih =>
    intro s h
    rw [paraPass]
    rw [paraPassStep.eq_def]
    split
    · exact ⟨[], rfl⟩
    · rename_i c rest
      simp only [List.length_cons] at h
      split
      · match paraMatch rest with
        | some m =>
          have h1 := List.length_drop m rest
          obtain ⟨t, ht⟩ := ih (rest.drop m) (by omega)
          simp only [ht, exceptBind_ok]
          exact ⟨_, rfl⟩
        | none =>
          obtain ⟨t, ht⟩ := ih rest (by omega)
          simp only [ht, exceptBind_ok]
          exact ⟨c :: t, rfl⟩
      · obtain ⟨t, ht⟩ := ih rest (by omega)
        simp only [ht, exceptBind_ok]
        exact ⟨c :: t, rfl⟩

theorem preWrapE_ok (s : List Char) : ∃ t, preWrapE s = .ok t := by
  unfold preWrapE
  obtain ⟨s1, h1⟩ := scanG_ok tableMatchAtFn tableMatchAtFn_ok (s.length + 1) true s (by omega)
  simp only [h1, exceptBind_ok]
  obtain ⟨s2, h2⟩ := fencePass_ok (s1.length + 1) s1 (by omega)
  simp only [h2, exceptBind_ok]
  obtain ⟨s3, h3⟩ := inlineCodePass_ok (s2.length + 1) s2 (by omega)
  simp only [h3, exceptBind_ok]
  obtain ⟨s4, h4⟩ := boldPass_ok (s3.length + 1) s3 (by omega)
  simp only [h4, exceptBind_ok]
  obtain ⟨s5, h5⟩ := italicPass_ok (s4.length + 1) false s4 (by omega)
  simp only [h5, exceptBind_ok]
  obtain ⟨s6, h6⟩ := scanG_ok ulMatchAt ulMatchAt_ok (s5.length + 1) true s5 (by omega)
  simp only [h6, exceptBind_ok]
  obtain ⟨s7, h7⟩ := scanG_ok olMatchAt olMatchAt_ok (s6.length + 1) true s6 (by omega)
  simp only [h7, exceptBind_ok]
  obtain ⟨s8, h8⟩ := paraPass_ok (s7.length + 1) s7 (by omega)
  simp only [h8, exceptBind_ok]
  exact ⟨brPass s8, rfl⟩

/-- C2: for every input (absent, empty, or any string, however malformed its
markdown), the embedded `formatMessage` runs to completion and returns a
string: every `Except.error` branch — fuel exhaustion in the backtracking
scanners and the one place the JS code could throw (`rows[0].match` with
`rows` empty) — is unreachable. -/
theorem c2_total_no_errors : ∀ m : Option String, ∃ t, formatMessageE m = .ok t := by
  intro m
  match m with
  | none => exact ⟨"", rfl⟩
  | some str =>
    show ∃ t, (if str = "" then Except.ok "" else
      (preWrapE str.data >>= fun t => Except.ok (String.mk (if t.head? = some '<' then t else
        '<' :: 'p' :: '>' :: (t ++ "</p>".data))))) = Except.ok t
    by_cases hstr : str = ""
    · rw [if_pos hstr]
      exact ⟨"", rfl⟩
    · rw [if_neg hstr]
      obtain ⟨t, ht⟩ := preWrapE_ok str.data
      simp only [ht, exceptBind_ok]
      exact ⟨_, rfl⟩

theorem startsTicks3_false {c : Char} (rest : List Char) (hc : c ≠ tick) :
    startsTicks3 (c :: rest) = false := by
  rw [startsTicks3.eq_def]
  split
  · rename_i c1 c2 c3 tail heq
    injection heq with h1 h2
    subst h1
    have : (c == tick) = false := by
      cases hb : c == tick
      · rfl
      · exact absurd (by exact eq_of_beq hb) hc
    simp [this]
  · rfl

theorem fencePass_id : ∀ fuel s, s.length < fuel → (∀ c ∈ s, c ≠ tick) →
    fencePass fuel s = .ok s := by
  intro fuel
  induction fuel with
  | zero => intro s h _; omega
  | succ fuel ih =>
    intro s h hs
    rw [fencePass, fencePassStep.eq_def]
    split
    · rfl
    · rename_i c rest
      have hc : c ≠ tick := hs c (List.mem_cons_self c rest)
      rw [if_neg (by simp [startsTicks3_false rest hc])]
      simp only [List.length_cons] at h
      rw [ih rest (by omega) (fun x hx => hs x (List.mem_cons_of_mem c hx)), exceptBind_ok]

theorem inlineCodePass_id : ∀ fuel s, s.length < fuel → (∀ c ∈ s, c ≠ tick) →
    inlineCodePass fuel s = .ok s := by
  intro fuel
  induction fuel with
  | zero => intro s h _; omega
  | succ fuel ih =>
    intro s h hs
    rw [inlineCodePass, inlineCodePassStep.eq_def]
    split
    · rfl
    · rename_i c rest
      have hc : c ≠ tick := hs c (List.mem_cons_self c rest)
      rw [if_neg hc]
      simp only [List.length_cons] at h
      rw [ih rest (by omega) (fun x hx => hs x (List.mem_cons_of_mem c hx)), exceptBind_ok]

theorem boldPass_id : ∀ fuel s, s.length < fuel → (∀ c ∈ s, c ≠ '*') →
    boldPass fuel s = .ok s := by
  intro fuel
  induction fuel with
  | zero => intro s h _; omega
  | succ fuel ih =>
    intro s h hs
    rw [boldPass, boldPassStep.eq_def]
    split
    · rfl
    · rename_i c rest
      have hc : c ≠ '*' := hs c (List.mem_cons_self c rest)
      split
      · rename_i c2 rest2
        rw [if_neg (fun hss => hc hss.1)]
        simp only [List.length_cons] at h
        rw [ih (c2 :: rest2) (by simp only [List.length_cons]; omega)
          (fun x hx => hs x (List.mem_cons_of_mem c hx)), exceptBind_ok]
      · rfl

theorem italicPass_id : ∀ fuel b s, s.length < fuel → (∀ c ∈ s, c ≠ '*') →
    italicPass fuel b s = .ok s := by
  intro fuel
  induction fuel with
  | zero => intro b s h _; omega
  | succ fuel ih =>
    intro b s h hs
    rw [italicPass, italicPassStep.eq_def]
    split
    · rfl
    · rename_i c rest
      have hc : c ≠ '*' := hs c (List.mem_cons_self c rest)
      rw [if_neg hc]
      simp only [List.length_cons] at h
      rw [ih (angleUpd b c) rest (by omega)
        (fun x hx => hs x (List.mem_cons_of_mem c hx)), exceptBind_ok]

theorem brPass_cons_ne {c : Char} (rest : List Char) (hc : c ≠ '\n') :
    brPass (c :: rest) = c :: brPass rest := by
  rw [brPass, if_neg hc]

theorem brPass_id : ∀ s : List Char, '\n' ∉ s → brPass s = s := by
  intro s
  induction s with
  | nil => intro _; rfl
  | cons c rest ih =>
    intro h
    have hc : c ≠ '\n' := fun hcc => h (hcc ▸ List.mem_cons_self c rest)
    rw [brPass_cons_ne rest hc, ih (fun hm => h (List.mem_cons_of_mem c hm))]

theorem paraPass_id : ∀ fuel s, s.length < fuel →
    (∀ r : List Char, ('\n' :: r) <:+ s → paraMatch r = none) →
    paraPass fuel s = .ok s := by
  intro fuel
  induction fuel with
  | zero => intro s h _; omega
  | succ fuel ih =>
    intro s h hs
    rw [paraPass, paraPassStep.eq_def]
    split
    · rfl
    · rename_i c rest
      simp only [List.length_cons] at h
      have hsub : ∀ r : List Char, ('\n' :: r) <:+ rest → paraMatch r = none :=
        fun r hr => hs r (hr.trans (List.suffix_cons c rest))
      by_cases hc : c = '\n'
      · subst hc
        rw [if_pos rfl]
        rw [hs rest (List.suffix_refl _)]
        rw [ih rest (by omega) hsub, exceptBind_ok]
      · rw [if_neg hc]
        rw [ih rest (by omega) hsub, exceptBind_ok]

theorem scanG_id (matchAt : Bool → List Char → Except String (Option (Nat × List Char))) :
    ∀ fuel b s, s.length < fuel →
    matchAt b s = .ok none →
    (∀ (c : Char) (s' : List Char), (c :: s') <:+ s → matchAt (isLineTerm c) s' = .ok none) →
    scanG matchAt fuel b s = .ok s := by
  intro fuel
  induction fuel with
  | zero => intro b s h _ _; omega
  | succ fuel ih =>
    intro b s h h1 h2
    rw [scanG, scanGStep.eq_def]
    split
    · rfl
    · rename_i c rest
      simp only [List.length_cons] at h
      simp only [h1, exceptBind_ok]
      show (scanG matchAt fuel (isLineTerm c) rest >>= fun t => Except.ok (c :: t)) =
        Except.ok (c :: rest)
      rw [ih (isLineTerm c) rest (by omega)
        (h2 c rest (List.suffix_refl _))
        (fun c' s' hsuf => h2 c' s' (hsuf.trans (List.suffix_cons c rest))), exceptBind_ok]

theorem tableMatchAtCore_none {s : List Char} (h : ∀ s0 : List Char, s ≠ '|' :: s0) :
    tableMatchAtCore s = .ok none := by
  rw [tableMatchAtCore.eq_def]
  split
  · rename_i s1
    exact absurd rfl (h s1)
  · rfl

theorem tableMatchAtFn_none (b : Bool) {s : List Char} (h : ∀ s0 : List Char, s ≠ '|' :: s0) :
    tableMatchAtFn b s = .ok none := by
  unfold tableMatchAtFn
  simp only [tableMatchAtCore_none h, exceptBind_ok]

theorem tableScan_id (fuel : Nat) (b : Bool) (s : List Char) (hlen : s.length < fuel)
    (h : '|' ∉ s) : scanG tableMatchAtFn fuel b s = .ok s := by
  apply scanG_id tableMatchAtFn fuel b s hlen
  · exact tableMatchAtFn_none b (fun s0 hs0 => h (hs0 ▸ List.mem_cons_self '|' s0))
  · intro c s' hsuf
    apply tableMatchAtFn_none
    intro s0 hs0
    exact h (hsuf.subset (List.mem_cons_of_mem c (hs0 ▸ List.mem_cons_self '|' s0)))

theorem ulItemMatchAt_none {s : List Char} (h : ulFreeAt s = true) : ulItemMatchAt s = none := by
  unfold ulFreeAt at h
  unfold ulItemMatchAt ulItemCore
  cases hd : s.dropWhile jsWhite with
  | nil => rfl
  | cons m s2 =>
    rw [hd] at h
    have h' : (!(m == '-' || m == '*')) = true := h
    have hm : (m == '-' || m == '*') = false := by
      cases hb : (m == '-' || m == '*')
      · rfl
      · rw [hb] at h'; simp at h'
    show Option.map (withOptNl s) (if (m == '-' || m == '*') = true then
        Option.map (fun k => (List.takeWhile jsWhite s).length + 1 + k) (afterMarkerCore s2)
      else none) = none
    rw [hm]
    simp

theorem olItemMatchAt_none {s : List Char} (h : olFreeAt s = true) : olItemMatchAt s = none := by
  unfold olFreeAt at h
  unfold olItemMatchAt olItemCore
  by_cases hd : ((s.dropWhile jsWhite).takeWhile jsDigit).isEmpty = true
  · rw [if_pos hd]
    rfl
  · rw [if_neg hd]
    rw [Bool.not_eq_true] at hd
    rw [hd] at h
    simp only [Bool.false_or, Bool.not_eq_eq_eq_not, Bool.not_true, beq_eq_false_iff_ne] at h
    cases hdd : (s.dropWhile jsWhite).dropWhile jsDigit with
    | nil => rfl
    | cons d rest =>
      rw [hdd] at h
      have hd' : d ≠ '.' := by
        intro hcontra
        apply h
        rw [hcontra]
        rfl
      show Option.map (withOptNl s)
        (match d :: rest with
          | '.' :: s2 => Option.map (fun k =>
              (s.takeWhile jsWhite).length +
                ((s.dropWhile jsWhite).takeWhile jsDigit).length + 1 + k) (afterMarkerCore s2)
          | _ => none) = none
      rw [show (match d :: rest with
          | '.' :: s2 => Option.map (fun k =>
              (s.takeWhile jsWhite).length +
                ((s.dropWhile jsWhite).takeWhile jsDigit).length + 1 + k) (afterMarkerCore s2)
          | _ => none) = none from by
        split
        · rename_i s2 heq
          injection heq with h1 _
          exact absurd h1 hd'
        · rfl]
      rfl

theorem ulMatchAt_none (b : Bool) (s : List Char) (hb : b = true → ulItemMatchAt s = none) :
    ulMatchAt b s = .ok none := by
  cases b with
  | false => rfl
  | true =>
    unfold ulMatchAt
    rw [hb rfl]
    rfl

theorem olMatchAt_none (b : Bool) (s : List Char) (hb : b = true → olItemMatchAt s = none) :
    olMatchAt b s = .ok none := by
  cases b with
  | false => rfl
  | true =>
    unfold olMatchAt
    rw [hb rfl]
    rfl

theorem ulScan_id (fuel : Nat) (s : List Char) (hlen : s.length < fuel)
    (h0 : ulFreeAt s = true) (hl : s.tails.all ulLineFree = true) :
    scanG ulMatchAt fuel true s = .ok s := by
  apply scanG_id ulMatchAt fuel true s hlen
  · exact ulMatchAt_none true s (fun _ => ulItemMatchAt_none h0)
  · intro c s' hsuf
    have hmem : (c :: s') ∈ s.tails := (List.mem_tails _ _).mpr hsuf
    have hline := List.all_eq_true.mp hl _ hmem
    have hline' : (!(isLineTerm c) || ulFreeAt s') = true := hline
    cases hterm : isLineTerm c with
    | false => exact ulMatchAt_none false s' (fun hcontra => absurd hcontra (by simp))
    | true =>
      rw [hterm] at hline'
      simp at hline'
      exact ulMatchAt_none true s' (fun _ => ulItemMatchAt_none hline')

theorem olScan_id (fuel : Nat) (s : List Char) (hlen : s.length < fuel)
    (h0 : olFreeAt s = true) (hl : s.tails.all olLineFree = true) :
    scanG olMatchAt fuel true s = .ok s := by
  apply scanG_id olMatchAt fuel true s hlen
  · exact olMatchAt_none true s (fun _ => olItemMatchAt_none h0)
  · intro c s' hsuf
    have hmem : (c :: s') ∈ s.tails := (List.mem_tails _ _).mpr hsuf
    have hline := List.all_eq_true.mp hl _ hmem
    have hline' : (!(isLineTerm c) || olFreeAt s') = true := hline
    cases hterm : isLineTerm c with
    | false => exact olMatchAt_none false s' (fun hcontra => absurd hcontra (by simp))
    | true =>
      rw [hterm] at hline'
      simp at hline'
      exact olMatchAt_none true s' (fun _ => olItemMatchAt_none hline')

theorem paraFree_suffix {s : List Char} (h : s.tails.all paraFreeAt = true) :
    ∀ r : List Char, ('\n' :: r) <:+ s → paraMatch r = none := by
  intro r hsuf
  have hmem : ('\n' :: r) ∈ s.tails := (List.mem_tails _ _).mpr hsuf
  have hp := List.all_eq_true.mp h _ hmem
  have hp' : (paraMatch r).isNone = true := hp
  exact Option.isNone_iff_eq_none.mp hp'

/-- C4 counterexample: the claim "every non-empty marker-free input without
blank lines comes back wrapped in `<p>…</p>`" fails when the first character
is `<` (the raw input is returned bare) and when it is a newline (the
produced `<br>` makes the string start with `<`, again skipping the wrap). -/
theorem c4_counterexample :
    formatMessageE (some "<x") = .ok "<x" ∧ ("<x" : String) ≠ "<p><x</p>" ∧
    formatMessageE (some "\nx") = .ok "<br>x" ∧ ("<br>x" : String) ≠ "<p><br>x</p>" :=
  ⟨rfl, by decide, rfl, by decide⟩

/-- C4 (amended): for every non-empty input with no `|`, no backtick, no `*`,
no line whose leading whitespace is followed by a list marker, no line whose
leading whitespace is followed by digits and a dot, no blank-line
(`\n\s*\n`) occurrence, and — as the counterexample forces — whose first
character is neither `<` nor a newline, the result is exactly the input with
every newline replaced by `<br>`, wrapped in a single `<p>…</p>` pair. -/
theorem c4_plain_text_paragraph (s : String)
    (hne : s.data ≠ [])
    (hpipe : '|' ∉ s.data)
    (htick : tick ∉ s.data)
    (hstar : '*' ∉ s.data)
    (hul0 : ulFreeAt s.data = true)
    (hul : s.data.tails.all ulLineFree = true)
    (hol0 : olFreeAt s.data = true)
    (hol : s.data.tails.all olLineFree = true)
    (hpara : s.data.tails.all paraFreeAt = true)
    (hlt : s.data.headD 'x' ≠ '<')
    (hnl : s.data.headD 'x' ≠ '\n') :
    formatMessageE (some s) =
      .ok (String.mk ('<' :: 'p' :: '>' :: (brPass s.data ++ "</p>".data))) := by
  have hne' : s ≠ "" := by
    intro hs
    apply hne
    rw [hs]
  have hpre : preWrapE s.data = .ok (brPass s.data) := by
    unfold preWrapE
    simp only [tableScan_id (s.data.length + 1) true s.data (by omega) hpipe, exceptBind_ok]
    simp only [fencePass_id (s.data.length + 1) s.data (by omega)
      (fun c hc he => htick (he ▸ hc)), exceptBind_ok]
    simp only [inlineCodePass_id (s.data.length + 1) s.data (by omega)
      (fun c hc he => htick (he ▸ hc)), exceptBind_ok]
    simp only [boldPass_id (s.data.length + 1) s.data (by omega)
      (fun c hc he => hstar (he ▸ hc)), exceptBind_ok]
    simp only [italicPass_id (s.data.length + 1) false s.data (by omega)
      (fun c hc he => hstar (he ▸ hc)), exceptBind_ok]
    simp only [ulScan_id (s.data.length + 1) s.data (by omega) hul0 hul, exceptBind_ok]
    simp only [olScan_id (s.data.length + 1) s.data (by omega) hol0 hol, exceptBind_ok]
    simp only [paraPass_id (s.data.length + 1) s.data (by omega)
      (paraFree_suffix hpara), exceptBind_ok]
  show (if s = "" then Except.ok "" else (preWrapE s.data >>= fun t =>
    Except.ok (String.mk (if t.head? = some '<' then t else
      '<' :: 'p' :: '>' :: (t ++ "</p>".data))))) = _
  rw [if_neg hne']
  simp only [hpre, exceptBind_ok]
  have hhead : (brPass s.data).head? ≠ some '<' := by
    match hsd : s.data with
    | [] => exact absurd hsd hne
    | c :: rest =>
      rw [hsd] at hnl hlt
      have hnl' : c ≠ '\n' := hnl
      have hlt' : c ≠ '<' := hlt
      rw [brPass_cons_ne rest hnl']
      simp [hlt']
  rw [if_neg hhead]

set_option maxRecDepth 400000 in
/-- C4 witness: the amended theorem applied at `"2 bananas\n1 apple"` — lines
may start with digits as long as no dot follows them. -/
theorem c4_plain_text_paragraph_witness :
    formatMessageE (some "2 bananas\n1 apple") = .ok "<p>2 bananas<br>1 apple</p>" := by
  have h := c4_plain_text_paragraph "2 bananas\n1 apple" (by decide) (by decide) (by decide)
    (by decide) (by decide) (by decide) (by decide) (by decide) (by decide) (by decide)
    (by decide)
  exact h

/-- C10: the final wrapping step looks only at the first character of the
processed string — whenever the pipeline result begins with `<` (whether or
not any pass produced HTML there), the result is returned with no enclosing
`<p>…</p>`, e.g. `format("<x") = "<x"` for raw input that no pass touched. -/
theorem c10_wrap_first_char :
    (∀ (s : String) (t : List Char), s ≠ "" → preWrapE s.data = .ok t →
      t.head? = some '<' → formatMessageE (some s) = .ok (String.mk t)) ∧
    formatMessageE (some "<x") = .ok "<x" := by
  constructor
  · intro s t hs hp hh
    show (if s = "" then Except.ok "" else (preWrapE s.data >>= fun t =>
      Except.ok (String.mk (if t.head? = some '<' then t else
        '<' :: 'p' :: '>' :: (t ++ "</p>".data))))) = _
    rw [if_neg hs]
    simp only [hp, exceptBind_ok]
    rw [if_pos hh]
  · rfl

/-- C10 witness: the wrap-skipping branch exercised at `"<x"`. -/
theorem c10_wrap_first_char_witness :
    preWrapE "<x".data = .ok "<x".data ∧ formatMessageE (some "<x") = .ok "<x" :=
  ⟨rfl, c10_wrap_first_char.1 "<x" "<x".data (by decide) rfl rfl⟩

theorem plain_mem {l : List Char} (h : l.all plainChar = true) {c : Char} (hc : c ∈ l) :
    c ≠ tick ∧ c ≠ '*' ∧ c ≠ '|' ∧ isLineTerm c = false := by
  have hp := List.all_eq_true.mp h c hc
  unfold plainChar at hp
  simp only [Bool.and_eq_true, Bool.not_eq_true', beq_eq_false_iff_ne] at hp
  exact ⟨hp.1.1.1, hp.1.1.2, hp.1.2, hp.2⟩

theorem findFence_through (t : List Char) :
    ∀ mid : List Char, (∀ c ∈ mid, c ≠ tick) →
    findFence (mid ++ tick :: tick :: tick :: t) = some (mid, t) := by
  intro mid
  induction mid with
  | nil =>
    intro _
    rw [List.nil_append, findFence]
    rw [if_pos (by simp [startsTicks3])]
    rfl
  | cons c mid' ih =>
    intro hmid
    have hc : c ≠ tick := hmid c (List.mem_cons_self c mid')
    rw [List.cons_append, findFence]
    rw [if_neg (by simp [startsTicks3_false _ hc])]
    rw [ih (fun x hx => hmid x (List.mem_cons_of_mem c hx))]
    rfl

theorem fencePass_fence (mid : List Char) (hmid : ∀ c ∈ mid, c ≠ tick) :
    ∀ fuel, 2 ≤ fuel →
    fencePass fuel (tick :: tick :: tick :: (mid ++ [tick, tick, tick])) =
      .ok ("<pre><code>".data ++ mid ++ "</code></pre>".data) := by
  intro fuel hfuel
  obtain ⟨f, rfl⟩ : ∃ f, fuel = f + 2 := ⟨fuel - 2, by omega⟩
  rw [fencePass, fencePassStep.eq_def]
  show (if startsTicks3 (tick :: tick :: tick :: (mid ++ [tick, tick, tick])) = true then
      match findFence ((tick :: tick :: (mid ++ [tick, tick, tick])).drop 2) with
      | some p => do
        let t ← fencePass (f + 1) p.2
        Except.ok ("<pre><code>".data ++ p.1 ++ "</code></pre>".data ++ t)
      | none => do
        let t ← fencePass (f + 1) (tick :: tick :: (mid ++ [tick, tick, tick]))
        Except.ok (tick :: t)
    else do
      let t ← fencePass (f + 1) (tick :: tick :: (mid ++ [tick, tick, tick]))
      Except.ok (tick :: t)) = _
  rw [if_pos (by simp [startsTicks3])]
  have hdrop : (tick :: tick :: (mid ++ [tick, tick, tick])).drop 2 =
      mid ++ tick :: tick :: tick :: [] := rfl
  rw [hdrop, findFence_through [] mid hmid]
  show (fencePass (f + 1) [] >>= fun t =>
    Except.ok ("<pre><code>".data ++ mid ++ "</code></pre>".data ++ t)) = _
  rw [show fencePass (f + 1) [] = .ok [] from rfl, exceptBind_ok, List.append_nil]

theorem findCloseSS_through (q : List Char) :
    ∀ y : List Char, (∀ c ∈ y, c ≠ '*' ∧ dotChar c = true) →
    findCloseSS (y ++ '*' :: '*' :: q) = some (y, q) := by
  intro y
  induction y with
  | nil =>
    intro _
    rw [List.nil_append, findCloseSS]
    simp
  | cons c y' ih =>
    intro hy
    have hc := (hy c (List.mem_cons_self c y')).1
    have hd := (hy c (List.mem_cons_self c y')).2
    rw [List.cons_append]
    obtain ⟨d, r, hdr⟩ : ∃ d r, y' ++ '*' :: '*' :: q = d :: r := by
      cases y' with
      | nil => exact ⟨'*', '*' :: q, rfl⟩
      | cons e y'' => exact ⟨e, y'' ++ '*' :: '*' :: q, by simp⟩
    rw [findCloseSS.eq_def, hdr]
    show (if c = '*' ∧ d = '*' then some ([], r)
      else if dotChar c = true then (findCloseSS (d :: r)).map (fun p => (c :: p.1, p.2))
      else none) = _
    rw [if_neg (fun hss => hc hss.1), if_pos hd, ← hdr,
      ih (fun x hx => hy x (List.mem_cons_of_mem c hx))]
    rfl

theorem boldPass_copy (t : List Char) (ht : t ≠ []) :
    ∀ (p : List Char) (fuel : Nat), (∀ c ∈ p, c ≠ '*') →
    boldPass (p.length + fuel) (p ++ t) = (boldPass fuel t).map (fun u => p ++ u) := by
  intro p
  induction p with
  | nil =>
    intro fuel _
    rw [List.length_nil, Nat.zero_add, List.nil_append]
    cases h : boldPass fuel t
    · rfl
    · rfl
  | cons c p' ih =>
    intro fuel hp
    have hc : c ≠ '*' := hp c (List.mem_cons_self c p')
    obtain ⟨d, r, hdr⟩ : ∃ d r, p' ++ t = d :: r := by
      cases p' with
      | nil =>
        cases t with
        | nil => exact absurd rfl ht
        | cons e t' => exact ⟨e, t', by simp⟩
      | cons e p'' => exact ⟨e, p'' ++ t, by simp⟩
    rw [show (c :: p').length + fuel = (p'.length + fuel) + 1 from by simp; omega]
    rw [List.cons_append, boldPass, boldPassStep.eq_def, hdr]
    show (if c = '*' ∧ d = '*' then
        match findCloseSS r with
        | some pp => do
          let u ← boldPass (p'.length + fuel) pp.2
          Except.ok ("<strong>".data ++ pp.1 ++ "</strong>".data ++ u)
        | none => do
          let u ← boldPass (p'.length + fuel) (d :: r)
          Except.ok (c :: u)
      else do
        let u ← boldPass (p'.length + fuel) (d :: r)
        Except.ok (c :: u)) = _
    rw [if_neg (fun hss => hc hss.1), ← hdr,
      ih fuel (fun x hx => hp x (List.mem_cons_of_mem c hx))]
    cases h : boldPass fuel t
    · rfl
    · rfl

theorem boldPass_open (y q : List Char) (hy : ∀ c ∈ y, c ≠ '*' ∧ dotChar c = true)
    (hq : ∀ c ∈ q, c ≠ '*') (fuel : Nat) (hf : q.length < fuel) :
    boldPass (fuel + 1) ('*' :: '*' :: (y ++ '*' :: '*' :: q)) =
      .ok ("<strong>".data ++ y ++ "</strong>".data ++ q) := by
  rw [boldPass, boldPassStep.eq_def]
  show (if ('*' : Char) = '*' ∧ ('*' : Char) = '*' then
      match findCloseSS (y ++ '*' :: '*' :: q) with
      | some p => do
        let t ← boldPass fuel p.2
        Except.ok ("<strong>".data ++ p.1 ++ "</strong>".data ++ t)
      | none => do
        let t ← boldPass fuel ('*' :: (y ++ '*' :: '*' :: q))
        Except.ok ('*' :: t)
    else do
      let t ← boldPass fuel ('*' :: (y ++ '*' :: '*' :: q))
      Except.ok ('*' :: t)) = _
  rw [if_pos ⟨rfl, rfl⟩, findCloseSS_through q y hy]
  show (boldPass fuel q >>= fun t =>
    Except.ok ("<strong>".data ++ y ++ "</strong>".data ++ t)) = _
  rw [boldPass_id fuel q hf hq, exceptBind_ok]

theorem boldPass_emphasis (p y q : List Char) (hp : ∀ c ∈ p, c ≠ '*')
    (hy : ∀ c ∈ y, c ≠ '*' ∧ dotChar c = true) (hq : ∀ c ∈ q, c ≠ '*') :
    boldPass ((p ++ '*' :: '*' :: (y ++ '*' :: '*' :: q)).length + 1)
      (p ++ '*' :: '*' :: (y ++ '*' :: '*' :: q)) =
    .ok (p ++ ("<strong>".data ++ y ++ "</strong>".data ++ q)) := by
  have ht : ('*' :: '*' :: (y ++ '*' :: '*' :: q) : List Char) ≠ [] := by simp
  have hlen : (p ++ '*' :: '*' :: (y ++ '*' :: '*' :: q)).length + 1 =
      p.length + (('*' :: '*' :: (y ++ '*' :: '*' :: q)).length + 1) := by
    simp [List.length_append]
    omega
  rw [hlen, boldPass_copy _ ht p _ hp]
  rw [show ('*' :: '*' :: (y ++ '*' :: '*' :: q) : List Char).length =
    (y ++ '*' :: '*' :: q).length + 2 from by simp]
  rw [show (y ++ '*' :: '*' :: q).length + 2 + 1 = ((y ++ '*' :: '*' :: q).length + 2) + 1 from rfl]
  rw [boldPass_open y q hy hq ((y ++ '*' :: '*' :: q).length + 2)
    (by simp [List.length_append]; omega)]
  rfl

theorem tails_all_ul_of_noterm {s : List Char} (h : ∀ c ∈ s, isLineTerm c = false) :
    s.tails.all ulLineFree = true := by
  rw [List.all_eq_true]
  intro t ht
  match t with
  | [] => rfl
  | c :: s' =>
    have hc : c ∈ s := ((List.mem_tails _ _).mp ht).subset (List.mem_cons_self c s')
    show (!(isLineTerm c) || ulFreeAt s') = true
    rw [h c hc]
    rfl

theorem tails_all_ol_of_noterm {s : List Char} (h : ∀ c ∈ s, isLineTerm c = false) :
    s.tails.all olLineFree = true := by
  rw [List.all_eq_true]
  intro t ht
  match t with
  | [] => rfl
  | c :: s' =>
    have hc : c ∈ s := ((List.mem_tails _ _).mp ht).subset (List.mem_cons_self c s')
    show (!(isLineTerm c) || olFreeAt s') = true
    rw [h c hc]
    rfl

theorem tails_all_para_of_noterm {s : List Char} (h : ∀ c ∈ s, isLineTerm c = false) :
    s.tails.all paraFreeAt = true := by
  rw [List.all_eq_true]
  intro t ht
  match t with
  | [] => rfl
  | c :: r =>
    have hc : c ∈ s := ((List.mem_tails _ _).mp ht).subset (List.mem_cons_self c r)
    rw [paraFreeAt.eq_def]
    split
    · rename_i r' heq
      injection heq with h1 _
      exact absurd (h1 ▸ h c hc) (by decide)
    · rfl

theorem ulFreeAt_lt (r : List Char) : ulFreeAt ('<' :: r) = true := by
  unfold ulFreeAt
  rw [List.dropWhile_cons, if_neg (by decide)]
  show (!(('<' == '-') || ('<' == '*'))) = true
  decide

theorem olFreeAt_lt (r : List Char) : olFreeAt ('<' :: r) = true := by
  unfold olFreeAt
  rw [List.dropWhile_cons, if_neg (by decide)]
  rw [List.takeWhile_cons, if_neg (by decide)]
  rfl

/-- C9: fenced-code content is not protected from the later emphasis passes —
for every fenced block whose content is plain text around a `**…**` span
(no backticks, asterisks, pipes or line terminators elsewhere), the bold pass
rewrites the span inside the already-produced `<pre><code>…</code></pre>`. -/
theorem c9_bold_inside_fence (a y b : List Char)
    (ha : a.all plainChar = true) (hy : y.all plainChar = true)
    (hb : b.all plainChar = true) :
    formatMessageE (some (String.mk (tick :: tick :: tick ::
      (a ++ '*' :: '*' :: (y ++ '*' :: '*' :: (b ++ [tick, tick, tick])))))) =
    .ok (String.mk ("<pre><code>".data ++ a ++ "<strong>".data ++ y ++ "</strong>".data ++ b ++ "</code></pre>".data)) := by
  have haT : tick ∉ a := fun hm => (plain_mem ha hm).1 rfl
  have hyT : tick ∉ y := fun hm => (plain_mem hy hm).1 rfl
  have hbT : tick ∉ b := fun hm => (plain_mem hb hm).1 rfl
  have haS : '*' ∉ a := fun hm => (plain_mem ha hm).2.1 rfl
  have hyS : '*' ∉ y := fun hm => (plain_mem hy hm).2.1 rfl
  have hbS : '*' ∉ b := fun hm => (plain_mem hb hm).2.1 rfl
  have haP : '|' ∉ a := fun hm => (plain_mem ha hm).2.2.1 rfl
  have hyP : '|' ∉ y := fun hm => (plain_mem hy hm).2.2.1 rfl
  have hbP : '|' ∉ b := fun hm => (plain_mem hb hm).2.2.1 rfl
  have hne : String.mk (tick :: tick :: tick ::
      (a ++ '*' :: '*' :: (y ++ '*' :: '*' :: (b ++ [tick, tick, tick])))) ≠ "" := by
    intro h
    exact List.cons_ne_nil _ _ (congrArg String.data h)
  have hpipe : '|' ∉ (tick :: tick :: tick ::
      (a ++ '*' :: '*' :: (y ++ '*' :: '*' :: (b ++ [tick, tick, tick])))) := by
    intro hm
    simp only [List.mem_cons, List.mem_append] at hm
    have h1 : ('|' : Char) ≠ tick := by decide
    have h2 : ('|' : Char) ≠ '*' := by decide
    tauto
  have hmid : ∀ c ∈ (a ++ '*' :: '*' :: (y ++ '*' :: '*' :: b)), c ≠ tick := by
    intro c hc he
    subst he
    simp only [List.mem_cons, List.mem_append] at hc
    have h2 : tick ≠ '*' := by decide
    tauto
  have hshape : (tick :: tick :: tick ::
      (a ++ '*' :: '*' :: (y ++ '*' :: '*' :: (b ++ [tick, tick, tick])))) =
      tick :: tick :: tick :: ((a ++ '*' :: '*' :: (y ++ '*' :: '*' :: b)) ++ [tick, tick, tick]) := by
    simp [List.append_assoc]
  have h1 : scanG tableMatchAtFn ((tick :: tick :: tick ::
      (a ++ '*' :: '*' :: (y ++ '*' :: '*' :: (b ++ [tick, tick, tick])))).length + 1) true (tick :: tick :: tick ::
      (a ++ '*' :: '*' :: (y ++ '*' :: '*' :: (b ++ [tick, tick, tick])))) = .ok (tick :: tick :: tick ::
      (a ++ '*' :: '*' :: (y ++ '*' :: '*' :: (b ++ [tick, tick, tick])))) :=
    tableScan_id _ true _ (by omega) hpipe
  have h2 : fencePass ((tick :: tick :: tick ::
      (a ++ '*' :: '*' :: (y ++ '*' :: '*' :: (b ++ [tick, tick, tick])))).length + 1) (tick :: tick :: tick ::
      (a ++ '*' :: '*' :: (y ++ '*' :: '*' :: (b ++ [tick, tick, tick])))) = .ok ("<pre><code>".data ++ (a ++ '*' :: '*' :: (y ++ '*' :: '*' :: b)) ++ "</code></pre>".data) := by
    rw [hshape]
    exact fencePass_fence _ hmid _ (by simp only [List.length_cons]; omega)
  have hpreT : ∀ c ∈ ("<pre><code>".data : List Char), c ≠ tick := by decide
  have hpostT : ∀ c ∈ ("</code></pre>".data : List Char), c ≠ tick := by decide
  have hs2T : ∀ c ∈ ("<pre><code>".data ++ (a ++ '*' :: '*' :: (y ++ '*' :: '*' :: b)) ++ "</code></pre>".data), c ≠ tick := by
    intro c hc he
    subst he
    simp only [List.mem_append, List.mem_cons] at hc
    have h2 : tick ≠ '*' := by decide
    have h3 : tick ∉ ("<pre><code>".data : List Char) := by decide
    have h4 : tick ∉ ("</code></pre>".data : List Char) := by decide
    tauto
  have h3 : inlineCodePass (("<pre><code>".data ++ (a ++ '*' :: '*' :: (y ++ '*' :: '*' :: b)) ++ "</code></pre>".data).length + 1) ("<pre><code>".data ++ (a ++ '*' :: '*' :: (y ++ '*' :: '*' :: b)) ++ "</code></pre>".data) = .ok ("<pre><code>".data ++ (a ++ '*' :: '*' :: (y ++ '*' :: '*' :: b)) ++ "</code></pre>".data) :=
    inlineCodePass_id _ _ (by omega) hs2T
  have hPS : ∀ c ∈ ("<pre><code>".data ++ a), c ≠ '*' := by
    intro c hc he
    subst he
    simp only [List.mem_append] at hc
    have h4 : ∀ x ∈ ("<pre><code>".data : List Char), x ≠ '*' := by decide
    rcases hc with hc | hc
    · exact h4 _ hc rfl
    · exact haS hc
  have hQS : ∀ c ∈ (b ++ "</code></pre>".data), c ≠ '*' := by
    intro c hc he
    subst he
    simp only [List.mem_append] at hc
    have h4 : ∀ x ∈ ("</code></pre>".data : List Char), x ≠ '*' := by decide
    rcases hc with hc | hc
    · exact hbS hc
    · exact h4 _ hc rfl
  have hyD : ∀ c ∈ y, c ≠ '*' ∧ dotChar c = true := by
    intro c hc
    refine ⟨(plain_mem hy hc).2.1, ?_⟩
    unfold dotChar
    rw [(plain_mem hy hc).2.2.2]
    rfl
  have hshape2 : ("<pre><code>".data ++ (a ++ '*' :: '*' :: (y ++ '*' :: '*' :: b)) ++ "</code></pre>".data) = ("<pre><code>".data ++ a) ++ '*' :: '*' :: (y ++ '*' :: '*' :: (b ++ "</code></pre>".data)) := by
    simp [List.append_assoc]
  have h4 : boldPass (("<pre><code>".data ++ (a ++ '*' :: '*' :: (y ++ '*' :: '*' :: b)) ++ "</code></pre>".data).length + 1) ("<pre><code>".data ++ (a ++ '*' :: '*' :: (y ++ '*' :: '*' :: b)) ++ "</code></pre>".data) = .ok (("<pre><code>".data ++ a) ++ ("<strong>".data ++ y ++ "</strong>".data ++ (b ++ "</code></pre>".data))) := by
    rw [hshape2]
    exact boldPass_emphasis ("<pre><code>".data ++ a) y (b ++ "</code></pre>".data) hPS hyD hQS
  have htag1 : ∀ c ∈ ("<pre><code>".data : List Char), c ≠ '*' ∧ isLineTerm c = false := by decide
  have htag2 : ∀ c ∈ ("<strong>".data : List Char), c ≠ '*' ∧ isLineTerm c = false := by decide
  have htag3 : ∀ c ∈ ("</strong>".data : List Char), c ≠ '*' ∧ isLineTerm c = false := by decide
  have htag4 : ∀ c ∈ ("</code></pre>".data : List Char), c ≠ '*' ∧ isLineTerm c = false := by
    decide
  have hs4mem : ∀ c ∈ (("<pre><code>".data ++ a) ++ ("<strong>".data ++ y ++ "</strong>".data ++ (b ++ "</code></pre>".data))), c ≠ '*' ∧ isLineTerm c = false := by
    intro c hc
    simp only [List.mem_append] at hc
    rcases hc with (hc | hc) | ((hc | hc) | hc) | (hc | hc)
    · exact htag1 c hc
    · exact ⟨(plain_mem ha hc).2.1, (plain_mem ha hc).2.2.2⟩
    · exact htag2 c hc
    · exact ⟨(plain_mem hy hc).2.1, (plain_mem hy hc).2.2.2⟩
    · exact htag3 c hc
    · exact ⟨(plain_mem hb hc).2.1, (plain_mem hb hc).2.2.2⟩
    · exact htag4 c hc
  have hs4S : ∀ c ∈ (("<pre><code>".data ++ a) ++ ("<strong>".data ++ y ++ "</strong>".data ++ (b ++ "</code></pre>".data))), c ≠ '*' := fun c hc => (hs4mem c hc).1
  have hs4L : ∀ c ∈ (("<pre><code>".data ++ a) ++ ("<strong>".data ++ y ++ "</strong>".data ++ (b ++ "</code></pre>".data))), isLineTerm c = false := fun c hc => (hs4mem c hc).2
  have h5 : italicPass ((("<pre><code>".data ++ a) ++ ("<strong>".data ++ y ++ "</strong>".data ++ (b ++ "</code></pre>".data))).length + 1) false (("<pre><code>".data ++ a) ++ ("<strong>".data ++ y ++ "</strong>".data ++ (b ++ "</code></pre>".data))) = .ok (("<pre><code>".data ++ a) ++ ("<strong>".data ++ y ++ "</strong>".data ++ (b ++ "</code></pre>".data))) :=
    italicPass_id _ false _ (by omega) hs4S
  have hulF : ulFreeAt (("<pre><code>".data ++ a) ++ ("<strong>".data ++ y ++ "</strong>".data ++ (b ++ "</code></pre>".data))) = true := by
    show ulFreeAt ('<' :: (("pre><code>".data ++ a) ++
      ("<strong>".data ++ y ++ "</strong>".data ++ (b ++ "</code></pre>".data)))) = true
    exact ulFreeAt_lt _
  have holF : olFreeAt (("<pre><code>".data ++ a) ++ ("<strong>".data ++ y ++ "</strong>".data ++ (b ++ "</code></pre>".data))) = true := by
    show olFreeAt ('<' :: (("pre><code>".data ++ a) ++
      ("<strong>".data ++ y ++ "</strong>".data ++ (b ++ "</code></pre>".data)))) = true
    exact olFreeAt_lt _
  have h6 : scanG ulMatchAt ((("<pre><code>".data ++ a) ++ ("<strong>".data ++ y ++ "</strong>".data ++ (b ++ "</code></pre>".data))).length + 1) true (("<pre><code>".data ++ a) ++ ("<strong>".data ++ y ++ "</strong>".data ++ (b ++ "</code></pre>".data))) = .ok (("<pre><code>".data ++ a) ++ ("<strong>".data ++ y ++ "</strong>".data ++ (b ++ "</code></pre>".data))) :=
    ulScan_id _ _ (by omega) hulF (tails_all_ul_of_noterm hs4L)
  have h7 : scanG olMatchAt ((("<pre><code>".data ++ a) ++ ("<strong>".data ++ y ++ "</strong>".data ++ (b ++ "</code></pre>".data))).length + 1) true (("<pre><code>".data ++ a) ++ ("<strong>".data ++ y ++ "</strong>".data ++ (b ++ "</code></pre>".data))) = .ok (("<pre><code>".data ++ a) ++ ("<strong>".data ++ y ++ "</strong>".data ++ (b ++ "</code></pre>".data))) :=
    olScan_id _ _ (by omega) holF (tails_all_ol_of_noterm hs4L)
  have h8 : paraPass ((("<pre><code>".data ++ a) ++ ("<strong>".data ++ y ++ "</strong>".data ++ (b ++ "</code></pre>".data))).length + 1) (("<pre><code>".data ++ a) ++ ("<strong>".data ++ y ++ "</strong>".data ++ (b ++ "</code></pre>".data))) = .ok (("<pre><code>".data ++ a) ++ ("<strong>".data ++ y ++ "</strong>".data ++ (b ++ "</code></pre>".data))) :=
    paraPass_id _ _ (by omega) (paraFree_suffix (tails_all_para_of_noterm hs4L))
  have h9 : brPass (("<pre><code>".data ++ a) ++ ("<strong>".data ++ y ++ "</strong>".data ++ (b ++ "</code></pre>".data))) = (("<pre><code>".data ++ a) ++ ("<strong>".data ++ y ++ "</strong>".data ++ (b ++ "</code></pre>".data))) :=
    brPass_id _ (fun hm => absurd (hs4L '\n' hm) (by decide))
  have hhead : ((("<pre><code>".data ++ a) ++ ("<strong>".data ++ y ++ "</strong>".data ++ (b ++ "</code></pre>".data))) : List Char).head? = some '<' := rfl
  show (if String.mk (tick :: tick :: tick ::
      (a ++ '*' :: '*' :: (y ++ '*' :: '*' :: (b ++ [tick, tick, tick])))) = "" then Except.ok "" else
    (preWrapE (tick :: tick :: tick ::
      (a ++ '*' :: '*' :: (y ++ '*' :: '*' :: (b ++ [tick, tick, tick])))) >>= fun t => Except.ok (String.mk (if t.head? = some '<' then t else
      '<' :: 'p' :: '>' :: (t ++ "</p>".data))))) = _
  rw [if_neg hne]
  unfold preWrapE
  simp only [h1, exceptBind_ok]
  simp only [h2, exceptBind_ok]
  simp only [h3, exceptBind_ok]
  simp only [h4, exceptBind_ok]
  simp only [h5, exceptBind_ok]
  simp only [h6, exceptBind_ok]
  simp only [h7, exceptBind_ok]
  simp only [h8, exceptBind_ok]
  simp only [h9, exceptBind_ok]
  rw [if_pos hhead]
  have hfin : (("<pre><code>".data ++ a) ++ ("<strong>".data ++ y ++ "</strong>".data ++ (b ++ "</code></pre>".data))) = ("<pre><code>".data ++ a ++ "<strong>".data ++ y ++ "</strong>".data ++ b ++ "</code></pre>".data) := by
    simp [List.append_assoc]
  rw [hfin]

/-- C9 witness: the theorem applied at the fenced block ```` ```a **x** b``` ````. -/
theorem c9_bold_inside_fence_witness :
    formatMessageE (some "```a **x** b```") =
      .ok "<pre><code>a <strong>x</strong> b</code></pre>" := by
  have h := c9_bold_inside_fence ['a', ' '] ['x'] [' ', 'b'] (by decide) (by decide) (by decide)
  exact h
